import Mathlib

/-! Recurrence quantification analysis: a model of `src/utils/rqa_utils.cpp`.

The functions of the source (`rqa_dist`, `rqa_radius`, `rqa_line`,
`rqa_histlines`, `rqa_entropy`, `rqa_stats`) are embedded as pure functions,
followed by the properties of the specification that they satisfy or fail.

Conventions of the embedding.

* `float` and `double` values live in an arbitrary linearly ordered field `K`
  (exact arithmetic).  The definitions are computable, so they run at `K = ℚ`;
  statements on square roots and logarithms are made at `K = ℝ`.
* `std::sqrt` and `std::log` are not part of the source file; the functions
  that call them take them as the parameters `sqrt` and `log`.
* A `py::array_t` is a shape together with its row-major buffer.  A buffer is
  well formed when its length is the product of the shape; reads go through
  `List.getD`, so a read outside the buffer (undefined in the source) gives `0`,
  and a store outside the buffer is dropped.  The one such store of `rqa_line`
  is `ll[-1]` on the `1 × 1` matrix holding a `1`, where the line buffer is
  empty; there the model does not describe the source, and the properties of
  `rqa_line` are stated for the other inputs.
* `int` values are integers without overflow (signed overflow is undefined in
  the source language; it does not occur for dimensions and band widths below
  `2 ^ 15`).
  The narrowing store into the `short` line-length buffer is modelled by
  `wrapShort`.
* `throw std::runtime_error(msg)` is `Except.error msg`.
* A `while` loop is a recursion on fuel; the fuel handed over by the caller is
  the length of the diagonal, which bounds the number of iterations
  (`scanDiagonal_fuel_enough`).
-/

namespace RQA

/-- Dense array: the shape and the row-major buffer of a `py::array_t`. -/
structure PyArray (α : Type) where
  shape : List Nat
  data : List α
deriving DecidableEq

/-- Number of dimensions, `buf.ndim`. -/
def PyArray.ndim {α : Type} (a : PyArray α) : Nat := a.shape.length

/-- Number of elements, `buf.size`. -/
def PyArray.size {α : Type} (a : PyArray α) : Nat := a.shape.prod

/-! ## `rqa_dist` -/

section Dist

variable {K : Type} [LinearOrderedField K]

/-- Read `ptr[i]` from a buffer.  An index outside the buffer is undefined in
the source; the model returns `0`. -/
def readAt (buf : List K) (i : Int) : K :=
  if i < 0 then 0 else buf.getD i.toNat 0

/-- Lines 43-48 of `rqa_dist`: the embedded points `emb[i * dim + k] = ptr[lag * k + i]`. -/
def embedLoop (ptr : List K) (n2 dim : Nat) (lag : Int) : List K :=
  (List.range dim).foldl
    (fun emb k => (List.range n2).foldl
      (fun emb i => emb.set (i * dim + k) (readAt ptr (lag * (k : Int) + (i : Int)))) emb)
    (List.replicate (n2 * dim) 0)

/-- Lines 51-55: the sum of squared coordinate differences of points `i` and `j`. -/
def sumSq (emb_a emb_b : List K) (dim i j : Nat) : K :=
  (List.range dim).foldl
    (fun sum_sq k =>
      let diff := emb_a.getD (i * dim + k) 0 - emb_b.getD (j * dim + k) 0
      sum_sq + diff * diff) 0

/-- The dictionary `ds` returned by `rqa_dist`. -/
structure DistResult (K : Type) where
  dim : Int
  lag : Int
  d : PyArray K

/-- Model of `rqa_dist` (lines 22-72): the distances between the embedded
points of two sequences.  The rows of the result are written in order. -/
def rqa_dist (sqrt : K → K) (a b : PyArray K) (dim lag : Int) : Except String (DistResult K) :=
  if a.ndim < 1 ∨ b.ndim < 1 then
    .error "Input arrays must have at least one dimension."
  else
    let n : Int := (a.shape.getD 0 0 : Nat)
    let n2 : Int := n - lag * (dim - 1)
    if n2 ≤ 0 then
      .error "Not enough data for these embedding parameters."
    else
      let m := n2.toNat
      let res : List K :=
        if dim > 1 then
          let emb_a := embedLoop a.data m dim.toNat lag
          let emb_b := embedLoop b.data m dim.toNat lag
          ((List.range m).map (fun (i : Nat) => (List.range m).map (fun (j : Nat) =>
            sqrt (sumSq emb_a emb_b dim.toNat i j)))).flatten
        else
          ((List.range m).map (fun (i : Nat) => (List.range m).map (fun (j : Nat) =>
            |readAt a.data (i : Int) - readAt b.data (j : Int)|))).flatten
      .ok { dim := dim, lag := lag, d := ⟨[m, m], res⟩ }

end Dist

/-! ## `rqa_radius` -/

section Radius

variable {K : Type} [LinearOrderedField K]

/-- The value `*std::max_element(first, last)`: the first greatest element.
On an empty range the source dereferences `end()`; the model returns `0`. -/
def max_element : List K → K
  | [] => 0
  | x :: xs => xs.foldl (fun largest v => if largest < v then v else largest) x

/-- Lines 103-112 of `rqa_radius`: the rescaling of the copied distances. -/
def rescaleDist (rescale : Int) (scaled : List K) : List K :=
  if rescale = 1 then
    let sum := scaled.sum
    let mean_val := sum / (scaled.length : K)
    scaled.map (fun v => v / mean_val)
  else if rescale = 2 then
    let max_val := max_element scaled
    scaled.map (fun v => v / max_val)
  else scaled

/-- Inner loop of lines 124-127: zero the two diagonals at offsets `+d` and `-d`. -/
def zeroDiagonal (n d : Nat) (thrd : List Int) : List Int :=
  (List.range (n - d)).foldl
    (fun t j => (t.set (j * n + (j + d)) 0).set ((j + d) * n + j) 0) thrd

/-- Outer loop of lines 123-128: `for (d = 0; d < diag_ignore; d++)`. -/
def zeroDiagonals (n diag_ignore : Nat) (thrd : List Int) : List Int :=
  (List.range diag_ignore).foldl (fun t d => zeroDiagonal n d t) thrd

/-- Model of `rqa_radius` (lines 84-132): threshold a square distance matrix. -/
def rqa_radius (dist : PyArray K) (rescale : Int) (rad : K) (diag_ignore : Int) :
    Except String (PyArray Int) :=
  if dist.ndim ≠ 2 ∨ dist.shape.getD 0 0 ≠ dist.shape.getD 1 0 then
    .error "Distance matrix must be square"
  else
    let n := dist.shape.getD 0 0
    if dist.size = 1 then
      .error "Distance matrix has only one element!"
    else if rad ≤ 0 then
      .error "Please use a scalar threshold > 0"
    else if diag_ignore < 0 then
      .error "Please use a non-negative integer for diag_ignore"
    else
      let scaled := rescaleDist rescale dist.data
      let thrd := (List.range (n * n)).map
        (fun i => if scaled.getD i 0 ≤ rad then (1 : Int) else 0)
      let thrd := if diag_ignore ≠ 0 then zeroDiagonals n diag_ignore.toNat thrd else thrd
      .ok ⟨[n, n], thrd⟩

end Radius

/-! ## `rqa_line` -/

/-- Narrowing conversion of an `int` to a `short` (16 bits, two's complement). -/
def wrapShort (x : Int) : Int := (x + 32768) % 65536 - 32768

/-- Flat index `row * n + col` of the `j`-th cell of the diagonal at `offset`
(lines 161-169 and 178-186). -/
def diagIndex (n : Nat) (offset : Int) (j : Nat) : Nat :=
  if offset ≥ 0 then j * n + (j + offset.toNat)
  else (j + (-offset).toNat) * n + j

/-- Mutable state of the line scan: the buffer `ll`, the counter `nlines`, and
the count `recur[i][1]` of the diagonal being scanned. -/
structure ScanState where
  ll : List Int
  nlines : Nat
  ones : Nat
deriving DecidableEq

/-- Inner `while (k < ld)` loop (lines 177-194): extend the current line.
Returns the final `k` and the state.  Each iteration increases `k`, so `ld`
units of fuel are enough.  The index `nlines - 1` is `-1` in the source only
when the capacity is `0`; the buffer is then empty, the store of the source is
outside it (undefined), and the model drops it. -/
def extendLine (data : List Int) (n : Nat) (offset : Int) (ld : Nat) :
    Nat → Nat → ScanState → Nat × ScanState
  | 0, k, s => (k, s)
  | fuel + 1, k, s =>
    if k < ld then
      if data.getD (diagIndex n offset k) 0 = 1 then
        extendLine data n offset ld fuel (k + 1)
          { s with
            ll := s.ll.set (s.nlines - 1) (wrapShort (s.ll.getD (s.nlines - 1) 0 + 1))
            ones := s.ones + 1 }
      else (k, s)
    else (k, s)

/-- Outer `while (j < ld)` loop (lines 160-199) over one diagonal.  With a
capacity `possnumll ≥ 1` the clamp of lines 172-173 keeps the store of line 174
inside the buffer (`line_store_in_bounds`).  With capacity `0`, that is `n = 1`,
a cell holding `1` makes the source store to `ll[-1]` of an empty vector, which
is undefined; the model drops that store, so it describes the source only when
`n ≥ 2` or the `1 × 1` matrix holds no `1`. -/
def scanDiagonal (data : List Int) (n possnumll : Nat) (offset : Int) (ld : Nat) :
    Nat → Nat → ScanState → ScanState
  | 0, _, s => s
  | fuel + 1, j, s =>
    if j < ld then
      if data.getD (diagIndex n offset j) 0 = 1 then
        let nlines := s.nlines + 1
        let nlines := if nlines > possnumll then possnumll else nlines
        let r := extendLine data n offset ld ld (j + 1)
          { ll := s.ll.set (nlines - 1) 1, nlines := nlines, ones := s.ones + 1 }
        scanDiagonal data n possnumll offset ld fuel r.1 r.2
      else scanDiagonal data n possnumll offset ld fuel (j + 1) s
    else s

/-- State of the `for` loop over the diagonals: the line buffer, the line
counter and the rows `(ld, ones)` of `recur` filled so far. -/
structure LineScan where
  ll : List Int
  nlines : Nat
  recur : List (Nat × Nat)
deriving DecidableEq

/-- One iteration of the `for (i = 0; i < diagCount; i++)` loop (lines 155-200). -/
def scanStep (data : List Int) (n possnumll : Nat) (st : LineScan) (i : Nat) : LineScan :=
  let offset : Int := (i : Int) - (n : Int) + 1
  let ld : Nat := n - offset.natAbs
  let s := scanDiagonal data n possnumll offset ld ld 0
    { ll := st.ll, nlines := st.nlines, ones := 0 }
  { ll := s.ll, nlines := s.nlines, recur := st.recur ++ [(ld, s.ones)] }

/-- The whole scan (lines 148-200) of an `n × n` buffer. -/
def scanLines (data : List Int) (n : Nat) : LineScan :=
  let possnumll := (n * n) / 2
  (List.range (2 * n - 1)).foldl (scanStep data n possnumll)
    { ll := List.replicate possnumll 0, nlines := 0, recur := [] }

section Line

variable {K : Type} [LinearOrderedField K]

/-- Lines 203-210: index of the first row of `recur` with the greatest length. -/
def findMid (recur : List (K × K)) : Nat :=
  ((List.range' 1 (recur.length - 1)).foldl
    (fun (p : Nat × K) i =>
      if (recur.getD i (0, 0)).1 > p.2 then (i, (recur.getD i (0, 0)).1) else p)
    (0, (recur.getD 0 (0, 0)).1)).1

/-- Lines 211-214: turn the counts of ones into densities. -/
def densities (recur : List (K × K)) : List (K × K) :=
  recur.map (fun r => if r.1 ≠ 0 then (r.1, r.2 / r.1) else r)

/-- Loop of lines 221-227, building `x_lower` and `y_lower`. -/
def lowerSeries (recur : List (K × K)) (mid : Nat) (diag_ignore first : Int) :
    Nat → Int → List K → List K → List K × List K
  | 0, _, xs, ys => (xs, ys)
  | m + 1, i, xs, ys =>
    let xs := xs ++ [((first + i : Int) : K)]
    let idx : Int := (mid : Int) - diag_ignore - i
    if idx < 0 then (xs, ys)
    else lowerSeries recur mid diag_ignore first m (i + 1) xs
      (ys ++ [100 * (recur.getD idx.toNat (0, 0)).2])

/-- Loop of lines 248-253, building `x_upper` and `y_upper`. -/
def upperSeries (recur : List (K × K)) (diagCount : Int) (diag_ignore first_up : Int) :
    Nat → Int → List K → List K → List K × List K
  | 0, _, xs, ys => (xs, ys)
  | m + 1, i, xs, ys =>
    let xs := xs ++ [((diag_ignore + i : Int) : K)]
    if first_up + i ≥ diagCount then (xs, ys)
    else upperSeries recur diagCount diag_ignore first_up m (i + 1) xs
      (ys ++ [100 * (recur.getD (first_up + i).toNat (0, 0)).2])

/-- Least-squares slope times 1000 (lines 228-241 and 254-267). -/
def trendOf (xs ys : List K) : K :=
  if ys.length ≥ 2 then
    let sum_x := xs.sum
    let sum_y := ys.sum
    let valid_count := ys.length
    let sum_xx := ((List.range valid_count).map (fun i => xs.getD i 0 * xs.getD i 0)).sum
    let sum_xy := ((List.range valid_count).map (fun i => xs.getD i 0 * ys.getD i 0)).sum
    let denom := (valid_count : K) * sum_xx - sum_x * sum_x
    if denom ≠ 0 then
      1000 * (((valid_count : K) * sum_xy - sum_x * sum_y) / denom)
    else 0
  else 0

/-- The tuple returned by `rqa_line`. -/
structure LineResult (K : Type) where
  ll : PyArray Int
  maxl_poss : Int
  npts : Int
  trend1 : K
  trend2 : K

/-- Line 270: the number of points outside the ignored band. -/
def nptsOf (n : Int) (diag_ignore : Int) : Int :=
  if diag_ignore = 0 then n * n
  else n * n - n - 2 * n * (diag_ignore - 1) + diag_ignore * (diag_ignore - 1)

/-- Model of `rqa_line` (lines 142-279).  For `n = 0` the source asks for a
vector of `2 * n - 1 = -1` rows, which throws.  The source does not validate
`diag_ignore`; it only enters the trends, `maxl_poss` and `npts`.  On the
`1 × 1` matrix holding a `1` the source stores outside its empty line buffer
(see `scanDiagonal`) and returns nothing; the model is to be read for the
other inputs only. -/
def rqa_line (K : Type) [LinearOrderedField K] (thrd : PyArray Int) (diag_ignore : Int) :
    Except String (LineResult K) :=
  if thrd.ndim ≠ 2 ∨ thrd.shape.getD 0 0 ≠ thrd.shape.getD 1 0 then
    .error "Thresholded distance matrix must be square"
  else
    let n := thrd.shape.getD 0 0
    if n = 0 then
      .error "cannot create std::vector larger than max_size()"
    else
      let diagCount := 2 * n - 1
      let sc := scanLines thrd.data n
      let ll := sc.ll.take sc.nlines
      let recur0 : List (K × K) := sc.recur.map (fun r => ((r.1 : K), (r.2 : K)))
      let mid := findMid recur0
      let recur := densities recur0
      -- lower diagonal trend
      let first : Int := diag_ignore
      let last : Int := (n : Int) - 1
      let len_range : Int := last - first + 1
      let lower := lowerSeries recur mid diag_ignore first len_range.toNat 0 [] []
      let trend1 := trendOf lower.1 lower.2
      -- upper diagonal trend
      let first_up : Int := (mid : Int) + diag_ignore
      let last_up : Int := 2 * (n : Int) - 2
      let len_range_up : Int := last_up - first_up + 1
      let upper := upperSeries recur (diagCount : Int) diag_ignore first_up
        len_range_up.toNat 0 [] []
      let trend2 := trendOf upper.1 upper.2
      let maxl_poss : Int := (n : Int) - diag_ignore
      let npts := nptsOf (n : Int) diag_ignore
      .ok { ll := ⟨[ll.length], ll⟩, maxl_poss := maxl_poss, npts := npts,
            trend1 := trend1, trend2 := trend2 }

end Line

/-! ## `rqa_histlines`, `rqa_entropy`, `rqa_stats` -/

/-- The operation `freq[v]++` on a `std::map<short, int>`, kept as a list of
`(key, count)` rows in increasing key order. -/
def mapIncr (v : Int) : List (Int × Nat) → List (Int × Nat)
  | [] => [(v, 1)]
  | (k, c) :: rest =>
    if v < k then (v, 1) :: (k, c) :: rest
    else if v = k then (k, c + 1) :: rest
    else (k, c) :: mapIncr v rest

section Stats

variable {K : Type} [LinearOrderedField K]

/-- The list `linestats = [mean, std, count]` returned by `rqa_histlines`. -/
structure LineStats (K : Type) where
  mean : K
  std : K
  count : Nat

/-- Lines 296-300: the lengths that reach `minl`, in their order. -/
def validLines (data : List Int) (minl : Int) : List Int :=
  data.filter (fun l => decide (l ≥ minl))

/-- Lines 326-328: the map `freq` after `freq[v]++` for every valid length. -/
def lineFreq (valid : List Int) : List (Int × Nat) :=
  valid.foldl (fun m v => mapIncr v m) []

/-- Lines 333-338: the rows `(length, count)` written to the buffer of `linehist`. -/
def histRows (freq : List (Int × Nat)) : List K :=
  freq.foldr (fun kv acc => (kv.1 : K) :: (kv.2 : K) :: acc) []

/-- Model of `rqa_histlines` (lines 286-340): the table `linehist` and the
statistics `linestats`. -/
def rqa_histlines (sqrt : K → K) (llengths : PyArray Int) (minl : Int) :
    Except String (PyArray K × LineStats K) :=
  if llengths.ndim ≠ 1 then
    .error "Input data must be a vector, not a matrix"
  else if minl ≤ 0 then
    .error "Please use an integer min line length >= 1"
  else
    let valid := validLines llengths.data minl
    if valid.isEmpty then
      .ok (⟨[1, 2], [0, 0]⟩, { mean := 0, std := 0, count := 0 })
    else
      let sum : K := (valid.map (fun (v : Int) => (v : K))).sum
      let mean_val : K := sum / (valid.length : K)
      let sq_sum : K :=
        (valid.map (fun (v : Int) => ((v : K) - mean_val) * ((v : K) - mean_val))).sum
      let std_val : K := sqrt (sq_sum / (valid.length : K))
      let count := valid.length
      let freq := lineFreq valid
      let num_unique := freq.length
      .ok (⟨[num_unique, 2], histRows freq⟩,
        { mean := mean_val, std := std_val, count := count })

/-- Model of `rqa_entropy` (lines 347-374): the list `[shannon_entropy, remaining_info]`. -/
def rqa_entropy (log : K → K) (distr : PyArray K) (nstates : Int) : Except String (List K) :=
  if distr.ndim ≠ 1 then
    .error "Input data must be a vector, not a matrix"
  else if nstates ≤ 0 then
    .error "Please use an integer greater than 0 for the number of states"
  else
    let sum_val : K := distr.data.sum
    if sum_val = 0 then
      .error "Sum of the distribution is zero; invalid input."
    else
      let shannon_entropy : K := distr.data.foldl
        (fun acc x => let p := x / sum_val; if p > 0 then acc - p * log p / log 2 else acc) 0
      let max_entropy : K := log (nstates : K) / log 2
      let remaining_info := max_entropy - shannon_entropy
      .ok [shannon_entropy, remaining_info]

/-- The dictionary `rs` returned by `rqa_stats`. -/
structure RqaStats (K : Type) where
  rescale : Int
  rad : K
  diag_ignore : Int
  minl : Int
  perc_recur : K
  perc_determ : K
  npts : Int
  entropy : List K
  maxl_poss : Int
  maxl_found : K
  trend1 : K
  trend2 : K
  llmnsd : LineStats K

/-- The dictionary `mats` returned by `rqa_stats`. -/
structure RqaMats (K : Type) where
  rescale : Int
  rad : K
  diag_ignore : Int
  minl : Int
  td : PyArray Int
  ll : PyArray Int
  lh : PyArray K

/-- The tuple `(td, rs, mats, err_code)` returned by `rqa_stats`. -/
structure RqaResult (K : Type) where
  td : PyArray Int
  rs : RqaStats K
  mats : RqaMats K
  err_code : Int

/-- Lines 420-424: the second column of the table `lh`. -/
def freqColumn (lh : PyArray K) : List K :=
  (List.range (lh.shape.getD 0 0)).map (fun i => lh.data.getD (i * 2 + 1) 0)

/-- Lines 448-455: the sum `sum_det` and the value `maxl_found`. -/
def detLoop (lh : PyArray K) : K × K :=
  (List.range (lh.shape.getD 0 0)).foldl
    (fun (acc : K × K) i =>
      let l_val := lh.data.getD (i * 2) 0
      let count_val := lh.data.getD (i * 2 + 1) 0
      (acc.1 + l_val * count_val, if l_val > acc.2 then l_val else acc.2))
    (0, 0)

/-- Model of `rqa_stats` (lines 386-484). -/
def rqa_stats (sqrt log : K → K) (d : PyArray K) (rescale : Int) (rad : K)
    (diag_ignore : Int) (minl : Int) (rqa_mode : String) : Except String (RqaResult K) :=
  let err_code : Int := 0
  let diag_ignore : Int := if rqa_mode = "cross" then 0 else diag_ignore
  match rqa_radius d rescale rad diag_ignore with
  | .error e => .error ("Error in thresholding: " ++ e)
  | .ok td =>
    match rqa_line K td diag_ignore with
    | .error e => .error e
    | .ok line_result =>
      let ll := line_result.ll
      let maxl_poss := line_result.maxl_poss
      let npts := line_result.npts
      if ll.size = 0 then
        .error "Error in line counting."
      else
        match rqa_histlines sqrt ll minl with
        | .error e => .error e
        | .ok (lh, llmnsd) =>
          let entropyRes : Except String (List K) :=
            if lh.size > 2 then
              rqa_entropy log ⟨[lh.shape.getD 0 0], freqColumn lh⟩ (maxl_poss - minl + 1)
            else .ok [0, 0]
          match entropyRes with
          | .error e => .error e
          | .ok entropy =>
            let recur_sum : Int := ll.data.sum
            let perc_rec : K := 100 * (recur_sum : K) / (npts : K)
            let det := if lh.size > 0 then detLoop lh else (0, 0)
            let perc_determ : K :=
              if lh.size > 0 then 100 * det.1 / (recur_sum : K) else 0
            let maxl_found : K := det.2
            .ok { td := td
                  rs := { rescale := rescale, rad := rad, diag_ignore := diag_ignore,
                          minl := minl, perc_recur := perc_rec, perc_determ := perc_determ,
                          npts := npts, entropy := entropy, maxl_poss := maxl_poss,
                          maxl_found := maxl_found, trend1 := line_result.trend1,
                          trend2 := line_result.trend2, llmnsd := llmnsd }
                  mats := { rescale := rescale, rad := rad, diag_ignore := diag_ignore,
                            minl := minl, td := td, ll := ll, lh := lh }
                  err_code := err_code }

end Stats

/-! ## Definitions used to state the properties -/

section SpecDefs

variable {K : Type} [LinearOrderedField K]

/-- The `4 × 4` distance matrix with every entry `1`. -/
def allOnes4 (K : Type) [LinearOrderedField K] : PyArray K := ⟨[4, 4], List.replicate 16 1⟩

end SpecDefs

/-- Number of cells `(i, j)` of an `n × n` matrix with `|i - j| ≥ diag_ignore`. -/
def consideredCells (n : Nat) (diag_ignore : Int) : Nat :=
  ((Finset.range n ×ˢ Finset.range n).filter
    (fun p => diag_ignore ≤ |(p.1 : Int) - (p.2 : Int)|)).card

/-- Lengths of the maximal runs of `true` in a list of cells, in order; `cur` is
the length of the run in progress when the list starts. -/
def runLengthsAux : Nat → List Bool → List Nat
  | cur, [] => if cur = 0 then [] else [cur]
  | cur, true :: bs => runLengthsAux (cur + 1) bs
  | cur, false :: bs => if cur = 0 then runLengthsAux 0 bs else cur :: runLengthsAux 0 bs

/-- Lengths of the maximal runs of `true` in a list of cells. -/
def runLengths (bs : List Bool) : List Nat := runLengthsAux 0 bs

/-- Whether the `j`-th cell of the diagonal at `offset` holds a `1`. -/
def cellAt (data : List Int) (n : Nat) (offset : Int) (j : Nat) : Bool :=
  decide (data.getD (diagIndex n offset j) 0 = 1)

/-- The cells of the diagonal at `offset`, of length `ld`, in scan order. -/
def diagCellsAt (data : List Int) (n : Nat) (offset : Int) (ld : Nat) : List Bool :=
  (List.range ld).map (cellAt data n offset)

/-- The cells of diagonal number `i` of an `n × n` buffer, `0 ≤ i < 2 n - 1`: the
diagonal at offset `i - (n - 1)`, of length `n - |offset|`. -/
def diagCells (data : List Int) (n i : Nat) : List Bool :=
  diagCellsAt data n ((i : Int) - (n : Int) + 1) (n - ((i : Int) - (n : Int) + 1).natAbs)

/-- The lengths of all maximal diagonal runs of `1`, diagonal by diagonal from
offset `-(n - 1)` to `n - 1`, each diagonal in increasing row order. -/
def allRuns (data : List Int) (n : Nat) : List Nat :=
  ((List.range (2 * n - 1)).map (fun i => runLengths (diagCells data n i))).flatten

/-- The number of maximal diagonal runs of `1` in an `n × n` buffer. -/
def lineCount (data : List Int) (n : Nat) : Nat := (allRuns data n).length

/-- The number of cells `(i, j)` of an `n × n` buffer that hold a `1`. -/
def onesCount (data : List Int) (n : Nat) : Nat :=
  ((Finset.range n ×ˢ Finset.range n).filter
    (fun p => data.getD (p.1 * n + p.2) 0 = 1)).card

/-- The number of cells `(i, j)` with `|i - j| ≥ diag_ignore` that hold a `1`. -/
def onesOutsideBand (data : List Int) (n : Nat) (diag_ignore : Int) : Nat :=
  ((Finset.range n ×ˢ Finset.range n).filter
    (fun p => diag_ignore ≤ |(p.1 : Int) - (p.2 : Int)| ∧ data.getD (p.1 * n + p.2) 0 = 1)).card

/-- The `n × n` buffer with `1` on the main diagonal and `0` elsewhere. -/
def identityMatrix (n : Nat) : List Int :=
  (List.range (n * n)).map (fun idx => if idx / n = idx % n then 1 else 0)

/-- What the frequency map holds after the lengths `p` went through `freq[v]++`. -/
def FreqInv (p : List Int) (m : List (Int × Nat)) : Prop :=
  (m.map Prod.fst).Pairwise (· < ·)
  ∧ (∀ k c, (k, c) ∈ m → c = p.count k ∧ 1 ≤ c)
  ∧ (∀ k ∈ p, k ∈ m.map Prod.fst)
  ∧ (m.map Prod.snd).sum = p.length
  ∧ (m.map (fun r => r.1 * (r.2 : Int))).sum = p.sum

/-- The `n × n` distance matrix with `0` on the main diagonal and `2` elsewhere. -/
def diagonalDistances (K : Type) [LinearOrderedField K] (n : Nat) : PyArray K :=
  ⟨[n, n], (List.range (n * n)).map (fun idx => if idx / n = idx % n then (0 : K) else 2)⟩

section TrendDefs

variable {K : Type} [LinearOrderedField K]

end TrendDefs

section Lemmas

variable {K : Type} [LinearOrderedField K]

/-! ### Thresholding (`rqa_radius`) -/

theorem getD_map_range {α : Type} (f : Nat → α) (m idx : Nat) (dflt : α) (h : idx < m) :
    ((List.range m).map f).getD idx dflt = f idx := by
  simp [List.getD_eq_getElem?_getD, List.getElem?_map, List.getElem?_range h]

/-- On a valid input `rqa_radius` returns the thresholded, band-zeroed buffer. -/
theorem rqa_radius_ok (n : Nat) (d : PyArray K) (rescale : Int) (rad : K) (diag_ignore : Int)
    (hshape : d.shape = [n, n]) (hn : 2 ≤ n) (hrad : 0 < rad) (hdi : 0 ≤ diag_ignore) :
    rqa_radius d rescale rad diag_ignore = .ok ⟨[n, n],
      if diag_ignore ≠ 0 then
        zeroDiagonals n diag_ignore.toNat ((List.range (n * n)).map
          (fun i => if (rescaleDist rescale d.data).getD i 0 ≤ rad then (1 : Int) else 0))
      else (List.range (n * n)).map
          (fun i => if (rescaleDist rescale d.data).getD i 0 ≤ rad then (1 : Int) else 0)⟩ := by
  have hsz : d.size ≠ 1 := by
    simp only [PyArray.size, hshape, List.prod_cons, List.prod_nil, mul_one]
    nlinarith
  have h1 : ¬ rad ≤ 0 := not_le.mpr hrad
  have h2 : ¬ diag_ignore < 0 := not_lt.mpr hdi
  simp [rqa_radius, PyArray.ndim, hshape, hsz, h1, h2]

/-! ### The loops that zero the excluded band -/

theorem flat_index_inj (n a b i j : Nat) (hb : b < n) (hj : j < n)
    (h : a * n + b = i * n + j) : a = i ∧ b = j := by
  have hn : 0 < n := by omega
  have h1 : (a * n + b) / n = a := by
    rw [Nat.add_comm, Nat.add_mul_div_right _ _ hn, Nat.div_eq_of_lt hb, Nat.zero_add]
  have h2 : (i * n + j) / n = i := by
    rw [Nat.add_comm, Nat.add_mul_div_right _ _ hn, Nat.div_eq_of_lt hj, Nat.zero_add]
  have ha : a = i := by rw [← h1, ← h2, h]
  subst ha
  exact ⟨rfl, by omega⟩

theorem getD_set_int (t : List Int) (a b : Nat) (v : Int) :
    (t.set a v).getD b 0 = if a = b ∧ a < t.length then v else t.getD b 0 := by
  simp only [List.getD_eq_getElem?_getD, List.getElem?_set]
  by_cases h : a = b
  · subst h
    by_cases h2 : a < t.length
    · simp [h2]
    · simp [h2, List.getElem?_eq_none (not_lt.mp h2)]
  · simp [h]

theorem zeroDiagonal_steps (n d : Nat) (t : List Int) (hlen : t.length = n * n) (m : Nat)
    (hm : m ≤ n - d) :
    ((List.range m).foldl
        (fun t j => (t.set (j * n + (j + d)) 0).set ((j + d) * n + j) 0) t).length = n * n
    ∧ ∀ i j, i < n → j < n →
      ((List.range m).foldl
        (fun t j => (t.set (j * n + (j + d)) 0).set ((j + d) * n + j) 0) t).getD (i * n + j) 0
        = if (j = i + d ∧ i < m) ∨ (i = j + d ∧ j < m) then 0 else t.getD (i * n + j) 0 := by
  induction m with
  | zero => simp [hlen]
  | succ m ih =>
    obtain ⟨ihl, ihv⟩ := ih (by omega)
    rw [List.range_succ, List.foldl_append]
    simp only [List.foldl_cons, List.foldl_nil]
    refine ⟨by simp [ihl], ?_⟩
    intro i j hi hj
    rw [getD_set_int, getD_set_int, ihv i j hi hj]
    have hA : ((m + d) * n + m = i * n + j) ↔ (i = m + d ∧ j = m) := by
      constructor
      · intro h
        have := flat_index_inj n (m + d) m i j (by omega) hj h
        omega
      · rintro ⟨rfl, rfl⟩; rfl
    have hB : (m * n + (m + d) = i * n + j) ↔ (i = m ∧ j = m + d) := by
      constructor
      · intro h
        have := flat_index_inj n m (m + d) i j (by omega) hj h
        omega
      · rintro ⟨rfl, rfl⟩; rfl
    have hL1 : (m + d) * n + m < n * n := by
      have : m + d + 1 ≤ n := by omega
      nlinarith
    have hL2 : m * n + (m + d) < n * n := by
      have : m + 1 ≤ n := by omega
      have : m + d < n := by omega
      nlinarith
    simp only [List.length_set, ihl, hL1, hL2, and_true, hA, hB]
    by_cases c1 : i = m + d ∧ j = m
    · have : (j = i + d ∧ i < m + 1) ∨ (i = j + d ∧ j < m + 1) := by right; omega
      simp [c1, this]
    · by_cases c2 : i = m ∧ j = m + d
      · have : (j = i + d ∧ i < m + 1) ∨ (i = j + d ∧ j < m + 1) := by left; omega
        simp [c1, c2, this]
      · have : ((j = i + d ∧ i < m + 1) ∨ (i = j + d ∧ j < m + 1))
            ↔ ((j = i + d ∧ i < m) ∨ (i = j + d ∧ j < m)) := by omega
        simp only [c1, c2, if_false, this]

theorem zeroDiagonal_spec (n d : Nat) (t : List Int) (hlen : t.length = n * n) :
    (zeroDiagonal n d t).length = n * n
    ∧ ∀ i j, i < n → j < n →
      (zeroDiagonal n d t).getD (i * n + j) 0
        = if j = i + d ∨ i = j + d then 0 else t.getD (i * n + j) 0 := by
  obtain ⟨h1, h2⟩ := zeroDiagonal_steps n d t hlen (n - d) (le_refl _)
  refine ⟨h1, ?_⟩
  intro i j hi hj
  unfold zeroDiagonal
  rw [h2 i j hi hj]
  have : ((j = i + d ∧ i < n - d) ∨ (i = j + d ∧ j < n - d)) ↔ (j = i + d ∨ i = j + d) := by
    omega
  simp only [this]

/-- The zeroing loops clear exactly the cells with `|i - j| < di`. -/
theorem zeroDiagonals_spec (n : Nat) (t : List Int) (hlen : t.length = n * n) (di : Nat) :
    (zeroDiagonals n di t).length = n * n
    ∧ ∀ i j, i < n → j < n →
      (zeroDiagonals n di t).getD (i * n + j) 0
        = if j < i + di ∧ i < j + di then 0 else t.getD (i * n + j) 0 := by
  induction di with
  | zero =>
    refine ⟨by simp [zeroDiagonals, hlen], ?_⟩
    intro i j _ _
    have : ¬ (j < i + 0 ∧ i < j + 0) := by omega
    rw [if_neg this]
    simp [zeroDiagonals]
  | succ di ih =>
    obtain ⟨ihl, ihv⟩ := ih
    have hstep : zeroDiagonals n (di + 1) t = zeroDiagonal n di (zeroDiagonals n di t) := by
      simp [zeroDiagonals, List.range_succ, List.foldl_append]
    obtain ⟨h1, h2⟩ := zeroDiagonal_spec n di _ ihl
    rw [hstep]
    refine ⟨h1, ?_⟩
    intro i j hi hj
    rw [h2 i j hi hj, ihv i j hi hj]
    by_cases c : j = i + di ∨ i = j + di
    · have : j < i + (di + 1) ∧ i < j + (di + 1) := by omega
      simp [c, this]
    · have : (j < i + (di + 1) ∧ i < j + (di + 1)) ↔ (j < i + di ∧ i < j + di) := by omega
      simp only [c, if_false, this]

/-! ### The closed form of `npts` -/

theorem card_row_outside (n i k : Nat) (hi : i < n) (hk : 1 ≤ k) :
    ((Finset.range n).filter (fun (j : Nat) => (k : Int) ≤ |(i : Int) - (j : Int)|)).card
      = (i + 1 - k) + (n - (i + k)) := by
  have hset : (Finset.range n).filter (fun (j : Nat) => (k : Int) ≤ |(i : Int) - (j : Int)|)
      = Finset.range (i + 1 - k) ∪ Finset.Ico (i + k) n := by
    ext j
    simp only [Finset.mem_filter, Finset.mem_range, Finset.mem_union, Finset.mem_Ico, le_abs]
    omega
  have hdisj : Disjoint (Finset.range (i + 1 - k)) (Finset.Ico (i + k) n) := by
    rw [Finset.disjoint_left]
    intro j h1 h2
    simp only [Finset.mem_range] at h1
    simp only [Finset.mem_Ico] at h2
    omega
  rw [hset, Finset.card_union_of_disjoint hdisj, Finset.card_range, Nat.card_Ico]

theorem sum_lower_tri (k n : Nat) :
    2 * (∑ i in Finset.range n, (i + 1 - k)) = (n - k) * (n - k + 1) := by
  induction n with
  | zero => simp
  | succ n ih =>
    rw [Finset.sum_range_succ, Nat.mul_add, ih]
    by_cases h : k ≤ n
    · obtain ⟨m, rfl⟩ := Nat.exists_eq_add_of_le h
      have e1 : k + m - k = m := by omega
      have e2 : k + m + 1 - k = m + 1 := by omega
      rw [e1, e2]; ring
    · have e1 : n - k = 0 := by omega
      have e2 : n + 1 - k = 0 := by omega
      rw [e1, e2]

theorem sum_upper_tri (k n : Nat) :
    (∑ i in Finset.range n, (n - (i + k))) = ∑ i in Finset.range n, (i + 1 - k) := by
  rw [← Finset.sum_range_reflect]
  apply Finset.sum_congr rfl
  intro i hi
  simp only [Finset.mem_range] at hi
  omega

theorem consideredCells_pos (n k : Nat) (hk : 1 ≤ k) :
    consideredCells n (k : Int) = (n - k) * (n - k + 1) := by
  unfold consideredCells
  rw [Finset.card_filter, Finset.sum_product]
  have : ∀ i ∈ Finset.range n,
      (∑ j in Finset.range n, if (k : Int) ≤ |(i : Int) - (j : Int)| then 1 else 0)
        = (i + 1 - k) + (n - (i + k)) := by
    intro i hi
    rw [← Finset.card_filter]
    exact card_row_outside n i k (Finset.mem_range.mp hi) hk
  rw [Finset.sum_congr rfl this, Finset.sum_add_distrib, sum_upper_tri, ← two_mul, sum_lower_tri]

theorem consideredCells_zero (n : Nat) : consideredCells n 0 = n * n := by
  unfold consideredCells
  have : ∀ p : Nat × Nat, (0 : Int) ≤ |(p.1 : Int) - (p.2 : Int)| := fun p => abs_nonneg _
  simp [this]

/-- The closed form of line 270 counts the cells outside the band while `diag_ignore ≤ n + 1`. -/
theorem nptsOf_eq_consideredCells (n : Nat) (diag_ignore : Int) (hdi : 0 ≤ diag_ignore)
    (hle : diag_ignore ≤ n + 1) :
    nptsOf (n : Int) diag_ignore = (consideredCells n diag_ignore : Int) := by
  by_cases h0 : diag_ignore = 0
  · subst h0
    simp [nptsOf, consideredCells_zero]
  · obtain ⟨k, rfl⟩ := Int.eq_ofNat_of_zero_le hdi
    have hk : 1 ≤ k := by omega
    rw [consideredCells_pos n k hk]
    simp only [nptsOf, h0, if_false]
    by_cases hkn : k ≤ n
    · obtain ⟨m, rfl⟩ := Nat.exists_eq_add_of_le hkn
      have e1 : k + m - k = m := by omega
      rw [e1]
      push_cast
      ring
    · have e : k = n + 1 := by omega
      subst e
      have e1 : n - (n + 1) = 0 := by omega
      rw [e1]
      push_cast
      ring

/-! ### The store that begins a line -/

/-- With a capacity of at least `1`, the counter after the clamp of lines
172-173 is at least `1` and the index `nlines - 1` of line 174 is inside the
buffer. -/
theorem line_store_in_bounds (cap nlines : Nat) (hcap : 1 ≤ cap) :
    1 ≤ (if nlines + 1 > cap then cap else nlines + 1)
    ∧ (if nlines + 1 > cap then cap else nlines + 1) - 1 < cap := by
  split_ifs <;> omega

/-- The capacity `n * n / 2` is at least `1` for `n ≥ 2`; it is `0` for `n = 1`. -/
theorem capacity_pos (n : Nat) (hn : 2 ≤ n) : 1 ≤ n * n / 2 := by
  have : 4 ≤ n * n := by nlinarith
  omega

/-! ### Unfolding `rqa_line`, `rqa_stats`, `rqa_histlines`, `rqa_entropy` -/

theorem rqa_line_ok (thrd : PyArray Int) (n : Nat) (diag_ignore : Int)
    (hshape : thrd.shape = [n, n]) (hn : 1 ≤ n) :
    ∃ r, rqa_line K thrd diag_ignore = .ok r
      ∧ r.ll.data = (scanLines thrd.data n).ll.take (scanLines thrd.data n).nlines
      ∧ r.ll.shape = [r.ll.data.length]
      ∧ r.npts = nptsOf (n : Int) diag_ignore
      ∧ r.maxl_poss = (n : Int) - diag_ignore := by
  have hn0 : n ≠ 0 := by omega
  have hsq : ¬ (thrd.ndim ≠ 2 ∨ thrd.shape.getD 0 0 ≠ thrd.shape.getD 1 0) := by
    simp [PyArray.ndim, hshape]
  have hn0' : ¬ (thrd.shape.getD 0 0 = 0) := by simp [hshape, hn0]
  have hg : thrd.shape.getD 0 0 = n := by simp [hshape]
  unfold rqa_line
  rw [if_neg hsq, if_neg hn0', hg]
  exact ⟨_, rfl, rfl, rfl, rfl, rfl⟩

theorem rqa_stats_ok (sqrt log : K → K) (d : PyArray K) (rescale : Int) (rad : K)
    (diag_ignore minl : Int) (rqa_mode : String) (td : PyArray Int) (lr : LineResult K)
    (lh : PyArray K) (st : LineStats K) (ent : List K)
    (hrad : rqa_radius d rescale rad (if rqa_mode = "cross" then 0 else diag_ignore) = .ok td)
    (hline : rqa_line K td (if rqa_mode = "cross" then 0 else diag_ignore) = .ok lr)
    (hsz : lr.ll.size ≠ 0)
    (hhist : rqa_histlines sqrt lr.ll minl = .ok (lh, st))
    (hent : (if lh.size > 2 then
        rqa_entropy log ⟨[lh.shape.getD 0 0], freqColumn lh⟩ (lr.maxl_poss - minl + 1)
      else .ok [0, 0]) = .ok ent) :
    ∃ r, rqa_stats sqrt log d rescale rad diag_ignore minl rqa_mode = .ok r
      ∧ r.td = td ∧ r.err_code = 0
      ∧ r.rs.perc_recur = 100 * ((lr.ll.data.sum : Int) : K) / ((lr.npts : Int) : K)
      ∧ r.rs.perc_determ
          = (if lh.size > 0 then 100 * (detLoop lh).1 / ((lr.ll.data.sum : Int) : K) else 0)
      ∧ r.rs.npts = lr.npts ∧ r.rs.entropy = ent ∧ r.rs.llmnsd = st
      ∧ r.rs.diag_ignore = (if rqa_mode = "cross" then 0 else diag_ignore)
      ∧ r.mats.ll = lr.ll ∧ r.mats.lh = lh := by
  simp only [rqa_stats, hrad, hline, hsz, if_false, hhist, hent]
  refine ⟨_, rfl, rfl, rfl, rfl, ?_, rfl, rfl, rfl, rfl, rfl, rfl⟩
  dsimp only
  split_ifs <;> rfl

theorem rqa_histlines_ok (sqrt : K → K) (llengths : PyArray Int) (minl : Int)
    (hvec : llengths.ndim = 1) (hminl : 1 ≤ minl)
    (hne : validLines llengths.data minl ≠ []) :
    rqa_histlines sqrt llengths minl
      = .ok (⟨[(lineFreq (validLines llengths.data minl)).length, 2],
              histRows (lineFreq (validLines llengths.data minl))⟩,
          { mean := ((validLines llengths.data minl).map (fun (v : Int) => (v : K))).sum
              / ((validLines llengths.data minl).length : K)
            std := sqrt (((validLines llengths.data minl).map (fun (v : Int) =>
                ((v : K) - ((validLines llengths.data minl).map (fun (v : Int) => (v : K))).sum
                    / ((validLines llengths.data minl).length : K))
                * ((v : K) - ((validLines llengths.data minl).map (fun (v : Int) => (v : K))).sum
                    / ((validLines llengths.data minl).length : K)))).sum
              / ((validLines llengths.data minl).length : K))
            count := (validLines llengths.data minl).length }) := by
  have h0 : ¬ minl ≤ 0 := by omega
  have h1 : ¬ llengths.ndim ≠ 1 := by simp [hvec]
  have h2 : (validLines llengths.data minl).isEmpty = false := by
    cases h : validLines llengths.data minl with
    | nil => exact absurd h hne
    | cons a l => rfl
  unfold rqa_histlines
  rw [if_neg h1, if_neg h0]
  simp only [h2, Bool.false_eq_true, if_false]

theorem rqa_entropy_ok (log : K → K) (distr : PyArray K) (nstates : Int)
    (hvec : distr.ndim = 1) (hn : 0 < nstates) (hsum : distr.data.sum ≠ 0) :
    ∃ e, rqa_entropy log distr nstates = .ok e := by
  have h0 : ¬ nstates ≤ 0 := by omega
  have h1 : ¬ distr.ndim ≠ 1 := by simp [hvec]
  unfold rqa_entropy
  rw [if_neg h1, if_neg h0]
  simp only [hsum, if_false]
  exact ⟨_, rfl⟩

/-! ### The `4 × 4` all-ones scenario -/

theorem radius_allOnes4 (rescale : Int) (h1 : rescale ≠ 1) (h2 : rescale ≠ 2) :
    rqa_radius (allOnes4 K) rescale 1 0 = .ok ⟨[4, 4], List.replicate 16 1⟩ := by
  simp [rqa_radius, allOnes4, PyArray.ndim, PyArray.size, rescaleDist, h1, h2, List.range_succ]

theorem scan_allOnes4 : scanLines (List.replicate 16 1) 4
    = { ll := [1, 2, 3, 4, 3, 2, 1, 0], nlines := 7,
        recur := [(1, 1), (2, 2), (3, 3), (4, 4), (3, 3), (2, 2), (1, 1)] } := by
  decide

theorem histlines_allOnes4 (sqrt log : K → K) (minl : Int) (hminl : 1 ≤ minl) :
    ∃ lh st ent, rqa_histlines sqrt ⟨[7], [1, 2, 3, 4, 3, 2, 1]⟩ minl = .ok (lh, st)
      ∧ (if lh.size > 2 then
          rqa_entropy log ⟨[lh.shape.getD 0 0], freqColumn lh⟩ ((4 : Int) - minl + 1)
        else .ok [0, 0]) = .ok ent := by
  by_cases h5 : 5 ≤ minl
  · have hv : validLines [1, 2, 3, 4, 3, 2, 1] minl = [] := by
      simp only [validLines, List.filter_eq_nil_iff]
      intro l hl
      simp only [List.mem_cons, List.mem_singleton, List.not_mem_nil, or_false] at hl
      simp only [ge_iff_le, decide_eq_true_eq, not_le]
      omega
    have h0 : ¬ minl ≤ 0 := by omega
    refine ⟨⟨[1, 2], [0, 0]⟩, ⟨0, 0, 0⟩, [0, 0], ?_, ?_⟩
    · simp [rqa_histlines, PyArray.ndim, h0, hv]
    · simp [PyArray.size]
  · have hcases : minl = 1 ∨ minl = 2 ∨ minl = 3 ∨ minl = 4 := by omega
    rcases hcases with h | h | h | h <;> subst h
    · have hv : validLines [1, 2, 3, 4, 3, 2, 1] 1 = [1, 2, 3, 4, 3, 2, 1] := by decide
      have hf : lineFreq [1, 2, 3, 4, 3, 2, 1] = [(1, 2), (2, 2), (3, 2), (4, 1)] := by decide
      have hent : ∃ e, rqa_entropy log (K := K) ⟨[4], [2, 2, 2, 1]⟩ ((4 : Int) - 1 + 1) = .ok e :=
        rqa_entropy_ok log _ _ rfl (by norm_num) (by norm_num)
      obtain ⟨e, he⟩ := hent
      refine ⟨_, _, e, rqa_histlines_ok sqrt _ 1 rfl (le_refl _) (by rw [hv]; simp), ?_⟩
      simp only [hv, hf]
      simpa [PyArray.size, freqColumn, histRows, List.range_succ] using he
    · have hv : validLines [1, 2, 3, 4, 3, 2, 1] 2 = [2, 3, 4, 3, 2] := by decide
      have hf : lineFreq [2, 3, 4, 3, 2] = [(2, 2), (3, 2), (4, 1)] := by decide
      have hent : ∃ e, rqa_entropy log (K := K) ⟨[3], [2, 2, 1]⟩ ((4 : Int) - 2 + 1) = .ok e :=
        rqa_entropy_ok log _ _ rfl (by norm_num) (by norm_num)
      obtain ⟨e, he⟩ := hent
      refine ⟨_, _, e, rqa_histlines_ok sqrt _ 2 rfl (by norm_num) (by rw [hv]; simp), ?_⟩
      simp only [hv, hf]
      simpa [PyArray.size, freqColumn, histRows, List.range_succ] using he
    · have hv : validLines [1, 2, 3, 4, 3, 2, 1] 3 = [3, 4, 3] := by decide
      have hf : lineFreq [3, 4, 3] = [(3, 2), (4, 1)] := by decide
      have hent : ∃ e, rqa_entropy log (K := K) ⟨[2], [2, 1]⟩ ((4 : Int) - 3 + 1) = .ok e :=
        rqa_entropy_ok log _ _ rfl (by norm_num) (by norm_num)
      obtain ⟨e, he⟩ := hent
      refine ⟨_, _, e, rqa_histlines_ok sqrt _ 3 rfl (by norm_num) (by rw [hv]; simp), ?_⟩
      simp only [hv, hf]
      simpa [PyArray.size, freqColumn, histRows, List.range_succ] using he
    · have hv : validLines [1, 2, 3, 4, 3, 2, 1] 4 = [4] := by decide
      have hf : lineFreq [4] = [(4, 1)] := by decide
      refine ⟨_, _, [0, 0], rqa_histlines_ok sqrt _ 4 rfl (by norm_num) (by rw [hv]; simp), ?_⟩
      simp only [hv, hf]
      simp [PyArray.size]

/-! ### Scanning a matrix without recurrence points -/

theorem mean_lower (l : List Int) (lo : Int) (hne : l ≠ []) (hlo : ∀ v ∈ l, lo ≤ v) :
    (lo : K) ≤ (l.map (fun (v : Int) => (v : K))).sum / (l.length : K) := by
  have hpos : (0 : K) < (l.length : K) := by
    exact_mod_cast List.length_pos.mpr hne
  have h1 := List.card_nsmul_le_sum (l.map (fun (v : Int) => (v : K))) (lo : K) (by
      intro x hx
      obtain ⟨v, hv, rfl⟩ := List.mem_map.mp hx
      exact_mod_cast hlo v hv)
  rw [List.length_map, nsmul_eq_mul] at h1
  rw [le_div_iff₀ hpos]
  linarith

theorem mean_upper (l : List Int) (hi : Int) (hne : l ≠ []) (hhi : ∀ v ∈ l, v ≤ hi) :
    (l.map (fun (v : Int) => (v : K))).sum / (l.length : K) ≤ (hi : K) := by
  have hpos : (0 : K) < (l.length : K) := by
    exact_mod_cast List.length_pos.mpr hne
  have h2 := List.sum_le_card_nsmul (l.map (fun (v : Int) => (v : K))) (hi : K) (by
      intro x hx
      obtain ⟨v, hv, rfl⟩ := List.mem_map.mp hx
      exact_mod_cast hhi v hv)
  rw [List.length_map, nsmul_eq_mul] at h2
  rw [div_le_iff₀ hpos]
  linarith

/-! ### The fuel of the scan loops is enough: more fuel changes nothing -/

theorem extendLine_ge (data : List Int) (n : Nat) (offset : Int) (ld : Nat)
    (fuel k : Nat) (s : ScanState) : k ≤ (extendLine data n offset ld fuel k s).1 := by
  induction fuel generalizing k s with
  | zero => exact le_refl _
  | succ fuel ih =>
    rw [extendLine]
    split_ifs
    · exact le_trans (Nat.le_succ k) (ih (k + 1) _)
    · exact le_refl _
    · exact le_refl _

theorem extendLine_fuel_enough (data : List Int) (n : Nat) (offset : Int) (ld : Nat)
    (fuel k : Nat) (s : ScanState) (h : ld - k ≤ fuel) :
    extendLine data n offset ld (fuel + 1) k s = extendLine data n offset ld fuel k s := by
  induction fuel generalizing k s with
  | zero =>
    have hk : ¬ k < ld := by omega
    simp only [extendLine, if_neg hk]
  | succ fuel ih =>
    rw [extendLine]
    conv_rhs => rw [extendLine]
    split_ifs with h1 h2
    · exact ih (k + 1) _ (by omega)
    · rfl
    · rfl

/-- Once the fuel covers the rest of the diagonal, one more unit changes nothing. -/
theorem scanDiagonal_fuel_enough (data : List Int) (n possnumll : Nat) (offset : Int)
    (ld fuel j : Nat) (s : ScanState) (h : ld - j ≤ fuel) :
    scanDiagonal data n possnumll offset ld (fuel + 1) j s
      = scanDiagonal data n possnumll offset ld fuel j s := by
  induction fuel generalizing j s with
  | zero =>
    have hj : ¬ j < ld := by omega
    simp only [scanDiagonal, if_neg hj]
  | succ fuel ih =>
    rw [scanDiagonal]
    conv_rhs => rw [scanDiagonal]
    split_ifs with h1 h2
    · have hge := extendLine_ge data n offset ld ld (j + 1)
        { ll := s.ll.set ((if s.nlines + 1 > possnumll then possnumll else s.nlines + 1) - 1) 1,
          nlines := if s.nlines + 1 > possnumll then possnumll else s.nlines + 1,
          ones := s.ones + 1 }
      exact ih _ _ (by omega)
    · exact ih (j + 1) s (by omega)
    · rfl

/-! ### The scan records the maximal runs while the buffer has room -/

theorem wrapShort_id (x : Int) (h0 : 0 ≤ x) (h1 : x ≤ 32767) : wrapShort x = x := by
  unfold wrapShort; omega

theorem diagCellsAt_drop (data : List Int) (n : Nat) (offset : Int) (ld k : Nat) (hk : k < ld) :
    (diagCellsAt data n offset ld).drop k
      = cellAt data n offset k :: (diagCellsAt data n offset ld).drop (k + 1) := by
  have hlen : k < (diagCellsAt data n offset ld).length := by simp [diagCellsAt, hk]
  rw [List.drop_eq_getElem_cons hlen]
  simp [diagCellsAt]

theorem diagCellsAt_drop_end (data : List Int) (n : Nat) (offset : Int) (ld k : Nat)
    (hk : ld ≤ k) : (diagCellsAt data n offset ld).drop k = [] := by
  apply List.drop_eq_nil_of_le
  simp [diagCellsAt, hk]

theorem set_getD_self (l : List Int) (i : Nat) (v : Int) (h : l.getD i 0 = v) (hi : i < l.length) :
    l.set i v = l := by
  apply List.ext_getElem
  · simp
  · intro m h1 h2
    rw [List.getElem_set]
    split_ifs with hm
    · subst hm
      rw [← h, List.getD_eq_getElem _ _ hi]
    · rfl

theorem scanState_stop (s : ScanState) (cur : Nat)
    (hcur : s.ll.getD (s.nlines - 1) 0 = (cur : Int)) (hidx : s.nlines - 1 < s.ll.length) :
    s = { ll := s.ll.set (s.nlines - 1) ((cur + 0 : Nat) : Int),
          nlines := s.nlines, ones := s.ones + 0 } := by
  rw [Nat.add_zero, Nat.add_zero, set_getD_self _ _ _ hcur hidx]

/-- The inner loop extends the current line to the end of its run. -/
theorem extendLine_spec (data : List Int) (n : Nat) (offset : Int) (ld : Nat)
    (fuel k : Nat) (s : ScanState) (cur : Nat)
    (hk : k ≤ ld) (hfuel : ld - k ≤ fuel) (hnl : 1 ≤ s.nlines) (hlen : s.nlines ≤ s.ll.length)
    (hcur : s.ll.getD (s.nlines - 1) 0 = (cur : Int)) (hcur1 : 1 ≤ cur)
    (hb : cur + (ld - k) ≤ 32767) :
    ∃ t, (extendLine data n offset ld fuel k s).1 = k + t ∧ k + t ≤ ld
      ∧ (extendLine data n offset ld fuel k s).2
          = { ll := s.ll.set (s.nlines - 1) ((cur + t : Nat) : Int),
              nlines := s.nlines, ones := s.ones + t }
      ∧ runLengthsAux cur ((diagCellsAt data n offset ld).drop k)
          = (cur + t) :: runLengthsAux 0 ((diagCellsAt data n offset ld).drop (k + t))
      ∧ ((diagCellsAt data n offset ld).drop k).count true
          = t + ((diagCellsAt data n offset ld).drop (k + t)).count true := by
  induction fuel generalizing k s cur with
  | zero =>
    have hcur0 : cur ≠ 0 := by omega
    have hidx : s.nlines - 1 < s.ll.length := by omega
    refine ⟨0, rfl, by omega, scanState_stop s cur hcur hidx, ?_, by simp⟩
    simp only [Nat.add_zero]
    rw [diagCellsAt_drop_end _ _ _ _ _ (by omega)]
    simp [runLengthsAux, hcur0]
  | succ fuel ih =>
    have hcur0 : cur ≠ 0 := by omega
    have hidx : s.nlines - 1 < s.ll.length := by omega
    by_cases hlt : k < ld
    · by_cases hc : data.getD (diagIndex n offset k) 0 = 1
      · have hcell : cellAt data n offset k = true := decide_eq_true hc
        have hw : wrapShort (s.ll.getD (s.nlines - 1) 0 + 1) = ((cur + 1 : Nat) : Int) := by
          rw [hcur, wrapShort_id _ (by omega) (by omega)]
          push_cast; rfl
        obtain ⟨t, h1, h2, h3, h4, h5⟩ := ih (k + 1)
          { ll := s.ll.set (s.nlines - 1) ((cur + 1 : Nat) : Int), nlines := s.nlines,
            ones := s.ones + 1 } (cur + 1) (by omega) (by omega) hnl (by simpa using hlen)
          (by
            simp only
            rw [List.getD_eq_getElem _ _ (by simpa using hidx)]
            simp) (by omega) (by omega)
        refine ⟨t + 1, ?_, by omega, ?_, ?_, ?_⟩
        · rw [extendLine, if_pos hlt, if_pos hc, hw, h1]; omega
        · rw [extendLine, if_pos hlt, if_pos hc, hw, h3]
          simp only [List.set_set]
          have e1 : cur + 1 + t = cur + (t + 1) := by omega
          have e2 : s.ones + 1 + t = s.ones + (t + 1) := by omega
          rw [e1, e2]
        · rw [diagCellsAt_drop _ _ _ _ _ hlt, hcell]
          simp only [runLengthsAux]
          rw [h4]
          have e1 : cur + 1 + t = cur + (t + 1) := by omega
          have e2 : k + 1 + t = k + (t + 1) := by omega
          rw [e1, e2]
        · rw [diagCellsAt_drop _ _ _ _ _ hlt, hcell, List.count_cons_self, h5]
          have e2 : k + 1 + t = k + (t + 1) := by omega
          rw [e2]; omega
      · have hcell : cellAt data n offset k = false := decide_eq_false hc
        refine ⟨0, ?_, by omega, ?_, ?_, by simp⟩
        · rw [extendLine, if_pos hlt, if_neg hc]; rfl
        · rw [extendLine, if_pos hlt, if_neg hc]; exact scanState_stop s cur hcur hidx
        · simp only [Nat.add_zero]
          rw [diagCellsAt_drop _ _ _ _ _ hlt, hcell]
          simp [runLengthsAux, hcur0]
    · refine ⟨0, ?_, by omega, ?_, ?_, by simp⟩
      · rw [extendLine, if_neg hlt]; rfl
      · rw [extendLine, if_neg hlt]; exact scanState_stop s cur hcur hidx
      · simp only [Nat.add_zero]
        rw [diagCellsAt_drop_end _ _ _ _ _ (by omega)]
        simp [runLengthsAux, hcur0]

theorem runLengthsAux_length_pos (cur : Nat) (bs : List Bool) (h : 1 ≤ cur) :
    1 ≤ (runLengthsAux cur bs).length := by
  induction bs generalizing cur with
  | nil =>
    have : cur ≠ 0 := by omega
    simp [runLengthsAux, this]
  | cons b bs ih =>
    cases b with
    | true => simpa [runLengthsAux] using ih (cur + 1) (by omega)
    | false =>
      have : cur ≠ 0 := by omega
      simp [runLengthsAux, this]

theorem take_set_succ (l : List Int) (i : Nat) (v : Int) (hi : i < l.length) :
    (l.set i v).take (i + 1) = l.take i ++ [v] := by
  induction l generalizing i with
  | nil => simp at hi
  | cons a l ih =>
    cases i with
    | zero => simp
    | succ i =>
      simp only [List.set_cons_succ, List.take_succ_cons, List.cons_append, List.cons.injEq,
        true_and]
      exact ih i (by simpa using hi)

/-- While the buffer has room, scanning a diagonal appends its run lengths. -/
theorem scanDiagonal_spec (data : List Int) (n cap : Nat) (offset : Int) (ld : Nat)
    (hld : ld ≤ 32767) (fuel j : Nat) (s : ScanState)
    (hj : j ≤ ld) (hfuel : ld - j ≤ fuel) (hlen : s.ll.length = cap)
    (hcap : s.nlines + (runLengthsAux 0 ((diagCellsAt data n offset ld).drop j)).length ≤ cap) :
    (scanDiagonal data n cap offset ld fuel j s).ll.length = cap
    ∧ (scanDiagonal data n cap offset ld fuel j s).nlines
        = s.nlines + (runLengthsAux 0 ((diagCellsAt data n offset ld).drop j)).length
    ∧ (scanDiagonal data n cap offset ld fuel j s).ll.take
          (scanDiagonal data n cap offset ld fuel j s).nlines
        = s.ll.take s.nlines
          ++ (runLengthsAux 0 ((diagCellsAt data n offset ld).drop j)).map
              (fun (x : Nat) => (x : Int))
    ∧ (scanDiagonal data n cap offset ld fuel j s).ones
        = s.ones + ((diagCellsAt data n offset ld).drop j).count true := by
  induction fuel generalizing j s with
  | zero =>
    rw [diagCellsAt_drop_end _ _ _ _ _ (by omega)]
    simp [scanDiagonal, runLengthsAux, hlen]
  | succ fuel ih =>
    by_cases hlt : j < ld
    · by_cases hc : data.getD (diagIndex n offset j) 0 = 1
      · have hcell : cellAt data n offset j = true := decide_eq_true hc
        have hR : runLengthsAux 0 ((diagCellsAt data n offset ld).drop j)
            = runLengthsAux 1 ((diagCellsAt data n offset ld).drop (j + 1)) := by
          rw [diagCellsAt_drop _ _ _ _ _ hlt, hcell]; rfl
        have hpos := runLengthsAux_length_pos 1 ((diagCellsAt data n offset ld).drop (j + 1))
          (le_refl _)
        rw [hR] at hcap
        have hnc : ¬ (s.nlines + 1 > cap) := by omega
        have hi : s.nlines < s.ll.length := by omega
        obtain ⟨t, h1, h2, h3, h4, h5⟩ := extendLine_spec data n offset ld ld (j + 1)
          { ll := s.ll.set (s.nlines + 1 - 1) 1, nlines := s.nlines + 1, ones := s.ones + 1 } 1
          (by omega) (by omega) (by simp) (by simp; omega)
          (by
            simp only [Nat.add_sub_cancel]
            rw [List.getD_eq_getElem _ _ (by simpa using hi)]
            simp) (le_refl _) (by omega)
        simp only [Nat.add_sub_cancel, List.set_set] at h3
        simp only [Nat.add_sub_cancel] at h1
        rw [h4] at hcap
        simp only [List.length_cons] at hcap
        obtain ⟨i1, i2, i3, i4⟩ := ih (j + 1 + t)
          { ll := s.ll.set s.nlines ((1 + t : Nat) : Int), nlines := s.nlines + 1,
            ones := s.ones + 1 + t } h2 (by omega) (by simp [hlen]) (by simp only; omega)
        have hstep : scanDiagonal data n cap offset ld (fuel + 1) j s
            = scanDiagonal data n cap offset ld fuel (j + 1 + t)
              { ll := s.ll.set s.nlines ((1 + t : Nat) : Int), nlines := s.nlines + 1,
                ones := s.ones + 1 + t } := by
          rw [scanDiagonal, if_pos hlt, if_pos hc]
          simp only [if_neg hnc, Nat.add_sub_cancel]
          rw [h1, h3]
        rw [hstep, hR, h4]
        refine ⟨i1, ?_, ?_, ?_⟩
        · rw [i2]; simp only [List.length_cons]; omega
        · rw [i3]
          simp only [List.map_cons, take_set_succ _ _ _ hi, List.append_assoc,
            List.singleton_append]
        · rw [i4, diagCellsAt_drop _ _ _ _ _ hlt, hcell, List.count_cons_self, h5]
          simp only; omega
      · have hcell : cellAt data n offset j = false := decide_eq_false hc
        have hR : runLengthsAux 0 ((diagCellsAt data n offset ld).drop j)
            = runLengthsAux 0 ((diagCellsAt data n offset ld).drop (j + 1)) := by
          rw [diagCellsAt_drop _ _ _ _ _ hlt, hcell]; rfl
        have hC : ((diagCellsAt data n offset ld).drop j).count true
            = ((diagCellsAt data n offset ld).drop (j + 1)).count true := by
          rw [diagCellsAt_drop _ _ _ _ _ hlt, hcell]; simp
        rw [hR] at hcap
        have hstep : scanDiagonal data n cap offset ld (fuel + 1) j s
            = scanDiagonal data n cap offset ld fuel (j + 1) s := by
          rw [scanDiagonal, if_pos hlt, if_neg hc]
        rw [hstep, hR, hC]
        exact ih (j + 1) s (by omega) (by omega) hlen hcap
    · have hstep : scanDiagonal data n cap offset ld (fuel + 1) j s = s := by
        rw [scanDiagonal, if_neg hlt]
      rw [hstep, diagCellsAt_drop_end _ _ _ _ _ (by omega)]
      simp [runLengthsAux, hlen]

theorem scanStep_spec (data : List Int) (n cap : Nat) (hn : n ≤ 32767) (st : LineScan) (i : Nat)
    (hlen : st.ll.length = cap)
    (hcap : st.nlines + (runLengths (diagCells data n i)).length ≤ cap) :
    (scanStep data n cap st i).ll.length = cap
    ∧ (scanStep data n cap st i).nlines = st.nlines + (runLengths (diagCells data n i)).length
    ∧ (scanStep data n cap st i).ll.take (scanStep data n cap st i).nlines
        = st.ll.take st.nlines
          ++ (runLengths (diagCells data n i)).map (fun (x : Nat) => (x : Int))
    ∧ (scanStep data n cap st i).recur
        = st.recur ++ [(n - ((i : Int) - (n : Int) + 1).natAbs,
            (diagCells data n i).count true)] := by
  obtain ⟨h1, h2, h3, h4⟩ := scanDiagonal_spec data n cap ((i : Int) - (n : Int) + 1)
    (n - ((i : Int) - (n : Int) + 1).natAbs) (by omega)
    (n - ((i : Int) - (n : Int) + 1).natAbs) 0
    { ll := st.ll, nlines := st.nlines, ones := 0 } (Nat.zero_le _) (by omega) hlen
    (by simpa [runLengths, diagCells] using hcap)
  simp only [List.drop_zero, Nat.zero_add] at h2 h3 h4
  refine ⟨h1, h2, h3, ?_⟩
  simp only [scanStep, h4, diagCells]

theorem foldl_scanStep_spec (data : List Int) (n cap : Nat) (hn : n ≤ 32767) (is : List Nat)
    (st : LineScan) (hlen : st.ll.length = cap)
    (hcap : st.nlines + ((is.map (fun i => runLengths (diagCells data n i))).flatten).length ≤ cap) :
    (is.foldl (scanStep data n cap) st).ll.length = cap
    ∧ (is.foldl (scanStep data n cap) st).nlines
        = st.nlines + ((is.map (fun i => runLengths (diagCells data n i))).flatten).length
    ∧ (is.foldl (scanStep data n cap) st).ll.take (is.foldl (scanStep data n cap) st).nlines
        = st.ll.take st.nlines
          ++ ((is.map (fun i => runLengths (diagCells data n i))).flatten).map
              (fun (x : Nat) => (x : Int))
    ∧ (is.foldl (scanStep data n cap) st).recur
        = st.recur ++ is.map (fun (i : Nat) => (n - ((i : Int) - (n : Int) + 1).natAbs,
            (diagCells data n i).count true)) := by
  induction is generalizing st with
  | nil => simp [hlen]
  | cons i is ih =>
    simp only [List.map_cons, List.flatten_cons, List.length_append] at hcap
    obtain ⟨s1, s2, s3, s4⟩ := scanStep_spec data n cap hn st i hlen (by omega)
    obtain ⟨f1, f2, f3, f4⟩ := ih (scanStep data n cap st i) s1 (by rw [s2]; omega)
    simp only [List.foldl_cons, List.map_cons, List.flatten_cons, List.length_append,
      List.map_append]
    refine ⟨f1, ?_, ?_, ?_⟩
    · rw [f2, s2]; omega
    · rw [f3, s3, List.append_assoc]
    · rw [f4, s4, List.append_assoc]; rfl

/-- While the buffer has room, the scan returns all run lengths in diagonal order. -/
theorem scanLines_spec (data : List Int) (n : Nat) (hn : n ≤ 32767)
    (hcap : lineCount data n ≤ n * n / 2) :
    (scanLines data n).nlines = lineCount data n
    ∧ (scanLines data n).ll.take (scanLines data n).nlines
        = (allRuns data n).map (fun (x : Nat) => (x : Int))
    ∧ (scanLines data n).recur
        = (List.range (2 * n - 1)).map (fun (i : Nat) => (n - ((i : Int) - (n : Int) + 1).natAbs,
            (diagCells data n i).count true)) := by
  obtain ⟨_, f2, f3, f4⟩ := foldl_scanStep_spec data n (n * n / 2) hn (List.range (2 * n - 1))
    { ll := List.replicate (n * n / 2) 0, nlines := 0, recur := [] } (by simp)
    (by simpa [lineCount, allRuns] using hcap)
  simp only [Nat.zero_add, List.take_zero, List.nil_append] at f2 f3 f4
  exact ⟨f2, f3, f4⟩

/-! ### Counting the ones diagonal by diagonal -/

theorem runLengthsAux_sum (cur : Nat) (bs : List Bool) :
    (runLengthsAux cur bs).sum = cur + bs.count true := by
  induction bs generalizing cur with
  | nil =>
    by_cases h : cur = 0
    · simp [runLengthsAux, h]
    · simp [runLengthsAux, h]
  | cons b bs ih =>
    cases b with
    | true =>
      simp only [runLengthsAux, ih, List.count_cons_self]
      omega
    | false =>
      by_cases h : cur = 0
      · simp [runLengthsAux, h, ih]
      · simp [runLengthsAux, h, ih]

theorem sum_map_range_eq_finset (f : Nat → Nat) (m : Nat) :
    ((List.range m).map f).sum = ∑ i in Finset.range m, f i := by
  induction m with
  | zero => simp
  | succ m ih =>
    rw [List.range_succ, List.map_append, List.sum_append, ih, Finset.sum_range_succ]
    simp

theorem allRuns_sum (data : List Int) (n : Nat) :
    (allRuns data n).sum = ∑ i in Finset.range (2 * n - 1), (diagCells data n i).count true := by
  unfold allRuns
  rw [List.sum_flatten, List.map_map, sum_map_range_eq_finset]
  apply Finset.sum_congr rfl
  intro i _
  simp [runLengths, runLengthsAux_sum]

theorem count_map_range (c : Nat → Bool) (m : Nat) :
    ((List.range m).map c).count true = ((Finset.range m).filter (fun j => c j = true)).card := by
  induction m with
  | zero => simp
  | succ m ih =>
    rw [List.range_succ, List.map_append, List.count_append, ih, Finset.range_succ,
      Finset.filter_insert]
    by_cases h : c m = true
    · rw [if_pos h, Finset.card_insert_of_not_mem (by simp)]
      simp [h]
    · rw [if_neg h]
      simp [h]

theorem diagIndex_upper (n i j : Nat) (h : n ≤ i + 1) :
    diagIndex n ((i : Int) - (n : Int) + 1) j = j * n + (j + (i + 1 - n)) := by
  have h0 : (i : Int) - (n : Int) + 1 ≥ 0 := by omega
  have h1 : ((i : Int) - (n : Int) + 1).toNat = i + 1 - n := by omega
  rw [diagIndex, if_pos h0, h1]

theorem diagIndex_lower (n i j : Nat) (h : i + 1 < n) :
    diagIndex n ((i : Int) - (n : Int) + 1) j = (j + (n - 1 - i)) * n + j := by
  have h0 : ¬ ((i : Int) - (n : Int) + 1 ≥ 0) := by omega
  have h1 : (-((i : Int) - (n : Int) + 1)).toNat = n - 1 - i := by omega
  rw [diagIndex, if_neg h0, h1]

/-- The diagonals partition the cells of the matrix. -/
theorem diag_count_eq_onesCount (data : List Int) (n : Nat) :
    (∑ i in Finset.range (2 * n - 1), (diagCells data n i).count true) = onesCount data n := by
  have hcount : ∀ i ∈ Finset.range (2 * n - 1), (diagCells data n i).count true
      = ((Finset.range (n - ((i : Int) - (n : Int) + 1).natAbs)).filter
          (fun j => data.getD (diagIndex n ((i : Int) - (n : Int) + 1) j) 0 = 1)).card := by
    intro i _
    rw [diagCells, diagCellsAt, count_map_range]
    congr 1
    ext j
    simp [cellAt]
  rw [Finset.sum_congr rfl hcount, ← Finset.card_sigma, onesCount]
  refine Finset.card_nbij'
    (fun (p : (_ : Nat) × Nat) =>
      if n ≤ p.1 + 1 then (p.2, p.2 + (p.1 + 1 - n)) else (p.2 + (n - 1 - p.1), p.2))
    (fun (q : Nat × Nat) => ⟨q.2 + (n - 1) - q.1, min q.1 q.2⟩) ?_ ?_ ?_ ?_
  · rintro ⟨i, j⟩ hp
    simp only [Finset.mem_sigma, Finset.mem_range, Finset.mem_filter] at hp
    obtain ⟨hi, hj, hd⟩ := hp
    by_cases h : n ≤ i + 1
    · rw [diagIndex_upper n i j h] at hd
      simp only [h, if_true, Finset.mem_filter, Finset.mem_product, Finset.mem_range]
      exact ⟨⟨by omega, by omega⟩, hd⟩
    · rw [diagIndex_lower n i j (by omega)] at hd
      simp only [h, if_false, Finset.mem_filter, Finset.mem_product, Finset.mem_range]
      exact ⟨⟨by omega, by omega⟩, hd⟩
  · rintro ⟨r, c⟩ hq
    simp only [Finset.mem_filter, Finset.mem_product, Finset.mem_range] at hq
    obtain ⟨⟨hr, hc⟩, hd⟩ := hq
    simp only [Finset.mem_sigma, Finset.mem_range, Finset.mem_filter]
    refine ⟨by omega, by omega, ?_⟩
    by_cases h : r ≤ c
    · rw [diagIndex_upper n _ _ (by omega)]
      have e1 : min r c = r := min_eq_left h
      have e2 : r + (c + (n - 1) - r + 1 - n) = c := by omega
      rw [e1, e2]; exact hd
    · rw [diagIndex_lower n _ _ (by omega)]
      have e1 : min r c = c := min_eq_right (by omega)
      have e2 : c + (n - 1 - (c + (n - 1) - r)) = r := by omega
      rw [e1, e2]; exact hd
  · rintro ⟨i, j⟩ hp
    simp only [Finset.mem_sigma, Finset.mem_range, Finset.mem_filter] at hp
    obtain ⟨hi, hj, _⟩ := hp
    by_cases h : n ≤ i + 1
    · simp only [h, if_true]
      have e1 : j + (i + 1 - n) + (n - 1) - j = i := by omega
      have e2 : min j (j + (i + 1 - n)) = j := by omega
      rw [e1, e2]
    · simp only [h, if_false]
      have e1 : j + (n - 1) - (j + (n - 1 - i)) = i := by omega
      have e2 : min (j + (n - 1 - i)) j = j := by omega
      rw [e1, e2]
  · rintro ⟨r, c⟩ hq
    simp only [Finset.mem_filter, Finset.mem_product, Finset.mem_range] at hq
    obtain ⟨⟨hr, hc⟩, _⟩ := hq
    by_cases h : r ≤ c
    · have h' : n ≤ c + (n - 1) - r + 1 := by omega
      simp only [h', if_true]
      have e1 : min r c = r := min_eq_left h
      have e2 : r + (c + (n - 1) - r + 1 - n) = c := by omega
      rw [e1, e2]
    · have h' : ¬ (n ≤ c + (n - 1) - r + 1) := by omega
      simp only [h', if_false]
      have e1 : min r c = c := min_eq_right (by omega)
      have e2 : c + (n - 1 - (c + (n - 1) - r)) = r := by omega
      rw [e1, e2]

theorem onesCount_eq_outside (data : List Int) (n : Nat) (diag_ignore : Int)
    (hband : ∀ i j, i < n → j < n → |(i : Int) - (j : Int)| < diag_ignore →
      data.getD (i * n + j) 0 = 0) :
    onesCount data n = onesOutsideBand data n diag_ignore := by
  unfold onesCount onesOutsideBand
  congr 1
  apply Finset.filter_congr
  rintro ⟨i, j⟩ hp
  simp only [Finset.mem_product, Finset.mem_range] at hp
  constructor
  · intro h1
    refine ⟨?_, h1⟩
    by_contra hlt
    have := hband i j hp.1 hp.2 (not_le.mp hlt)
    simp only at h1
    rw [this] at h1
    exact absurd h1 (by decide)
  · exact fun h => h.2

/-! ### Capacity of the line buffer when the main diagonal is empty -/

theorem runLengthsAux_length_le (cur : Nat) (bs : List Bool) :
    2 * (runLengthsAux cur bs).length ≤ bs.length + 1 + (if cur = 0 then 0 else 1) := by
  induction bs generalizing cur with
  | nil =>
    by_cases h : cur = 0
    · simp [runLengthsAux, h]
    · simp [runLengthsAux, h]
  | cons b bs ih =>
    cases b with
    | true =>
      have := ih (cur + 1)
      simp only [runLengthsAux, List.length_cons]
      simp only [Nat.add_eq_zero, one_ne_zero, and_false, if_false] at this
      split_ifs <;> omega
    | false =>
      have := ih 0
      simp only [if_true] at this
      by_cases h : cur = 0
      · simp only [runLengthsAux, h, if_true, List.length_cons]
        omega
      · simp only [runLengthsAux, h, if_false, List.length_cons]
        omega

theorem runLengthsAux_all_false (bs : List Bool) (h : ∀ b ∈ bs, b = false) :
    runLengthsAux 0 bs = [] := by
  induction bs with
  | nil => rfl
  | cons b bs ih =>
    have hb : b = false := h b (List.mem_cons_self _ _)
    subst hb
    simp only [runLengthsAux, if_true]
    exact ih (fun b hb => h b (List.mem_cons_of_mem _ hb))

theorem lineCount_eq_sum (data : List Int) (n : Nat) :
    lineCount data n
      = ∑ i in Finset.range (2 * n - 1), (runLengths (diagCells data n i)).length := by
  rw [lineCount, allRuns, List.length_flatten, List.map_map, sum_map_range_eq_finset]
  rfl

theorem sum_half_succ (m : Nat) :
    (∑ i in Finset.range m, (i + 2) / 2) = ((m + 1) / 2) * ((m + 2) / 2) := by
  induction m with
  | zero => simp
  | succ m ih =>
    rw [Finset.sum_range_succ, ih]
    obtain ⟨a, rfl | rfl⟩ := Nat.even_or_odd' m
    · have e1 : (2 * a + 1) / 2 = a := by omega
      have e2 : (2 * a + 2) / 2 = a + 1 := by omega
      have e3 : (2 * a + 1 + 1) / 2 = a + 1 := by omega
      have e4 : (2 * a + 1 + 2) / 2 = a + 1 := by omega
      simp only [e1, e2, e3, e4]; ring
    · have e1 : (2 * a + 1 + 1) / 2 = a + 1 := by omega
      have e2 : (2 * a + 1 + 2) / 2 = a + 1 := by omega
      have e3 : (2 * a + 1 + 1 + 1) / 2 = a + 1 := by omega
      have e4 : (2 * a + 1 + 1 + 2) / 2 = a + 2 := by omega
      simp only [e1, e2, e3, e4]; ring

theorem twice_half_product_le (n : Nat) : 2 * ((n / 2) * ((n + 1) / 2)) ≤ n * n / 2 := by
  obtain ⟨a, rfl | rfl⟩ := Nat.even_or_odd' n
  · have e1 : 2 * a / 2 = a := by omega
    have e2 : (2 * a + 1) / 2 = a := by omega
    have e3 : 2 * a * (2 * a) / 2 = 2 * (a * a) := by
      have : 2 * a * (2 * a) = 2 * (2 * (a * a)) := by ring
      rw [this]; omega
    rw [e1, e2, e3]
  · have e1 : (2 * a + 1) / 2 = a := by omega
    have e2 : (2 * a + 1 + 1) / 2 = a + 1 := by omega
    have e3 : (2 * a + 1) * (2 * a + 1) / 2 = 2 * (a * a) + 2 * a := by
      have : (2 * a + 1) * (2 * a + 1) = 2 * (2 * (a * a) + 2 * a) + 1 := by ring
      rw [this]; omega
    rw [e1, e2, e3]
    have : a * (a + 1) = a * a + a := by ring
    omega

/-- When the main diagonal holds no `1`, the number of diagonal runs is within
the capacity `n² / 2` of the line buffer. -/
theorem lineCount_le_capacity (data : List Int) (n : Nat) (hn : 1 ≤ n)
    (hdiag : ∀ j, j < n → data.getD (j * n + j) 0 = 0) :
    lineCount data n ≤ n * n / 2 := by
  obtain ⟨m, rfl⟩ : ∃ m, n = m + 1 := ⟨n - 1, by omega⟩
  have hbound : ∀ i ∈ Finset.range (2 * (m + 1) - 1),
      (runLengths (diagCells data (m + 1) i)).length
        ≤ if i = m then 0 else if i < m then (i + 2) / 2 else (2 * m + 2 - i) / 2 := by
    intro i hi
    simp only [Finset.mem_range] at hi
    by_cases him : i = m
    · subst him
      rw [if_pos rfl]
      have : runLengths (diagCells data (i + 1) i) = [] := by
        apply runLengthsAux_all_false
        intro b hb
        simp only [diagCells, diagCellsAt, List.mem_map, List.mem_range] at hb
        obtain ⟨j, hj, rfl⟩ := hb
        have hoff : ((i : Int) - ((i + 1 : Nat) : Int) + 1) = 0 := by push_cast; ring
        rw [hoff] at hj ⊢
        simp only [Int.natAbs_zero, Nat.sub_zero] at hj
        have := hdiag j hj
        simp only [cellAt, diagIndex, ge_iff_le, le_refl, if_true, Int.toNat_zero, Nat.add_zero,
          decide_eq_false_iff_not]
        rw [this]; decide
      rw [this]; exact le_refl _
    · rw [if_neg him]
      have hlen := runLengthsAux_length_le 0 (diagCells data (m + 1) i)
      simp only [if_true, diagCells, diagCellsAt, List.length_map, List.length_range] at hlen
      simp only [runLengths, diagCells, diagCellsAt]
      split_ifs with h1
      · omega
      · omega
  rw [lineCount_eq_sum]
  refine le_trans (Finset.sum_le_sum hbound) ?_
  have h2m : 2 * (m + 1) - 1 = m + (1 + m) := by omega
  rw [h2m, Finset.sum_range_add, Finset.sum_range_add]
  have hA : (∑ x in Finset.range m,
      (if x = m then 0 else if x < m then (x + 2) / 2 else (2 * m + 2 - x) / 2))
      = ∑ x in Finset.range m, (x + 2) / 2 := by
    apply Finset.sum_congr rfl
    intro x hx
    simp only [Finset.mem_range] at hx
    have h1 : x ≠ m := by omega
    rw [if_neg h1, if_pos hx]
  have hB : (∑ x in Finset.range m,
      (if m + (1 + x) = m then 0
        else if m + (1 + x) < m then (m + (1 + x) + 2) / 2 else (2 * m + 2 - (m + (1 + x))) / 2))
      = ∑ x in Finset.range m, (x + 2) / 2 := by
    rw [← Finset.sum_range_reflect (fun x => (x + 2) / 2) m]
    apply Finset.sum_congr rfl
    intro x hx
    simp only [Finset.mem_range] at hx
    have h1 : ¬ (m + (1 + x) = m) := by omega
    have h2 : ¬ (m + (1 + x) < m) := by omega
    rw [if_neg h1, if_neg h2]
    congr 1
    omega
  rw [hA, hB]
  simp only [Finset.range_one, Finset.sum_singleton, Nat.add_zero, if_true, Nat.zero_add]
  rw [sum_half_succ]
  have := twice_half_product_le (m + 1)
  have e : (m + 1 + 1) / 2 = (m + 2) / 2 := by rfl
  rw [e] at this
  omega

/-! ### A run longer than a `short` can hold -/

theorem identityMatrix_getD (n r c : Nat) (hr : r < n) (hc : c < n) :
    (identityMatrix n).getD (r * n + c) 0 = if r = c then 1 else 0 := by
  have hidx : r * n + c < n * n := by nlinarith
  have hn : 0 < n := by omega
  have h1 : (r * n + c) / n = r := by
    rw [Nat.add_comm, Nat.add_mul_div_right _ _ hn, Nat.div_eq_of_lt hc, Nat.zero_add]
  have h2 : (r * n + c) % n = c := by
    rw [Nat.add_comm, Nat.add_mul_mod_self_right, Nat.mod_eq_of_lt hc]
  rw [identityMatrix, getD_map_range _ _ _ _ hidx, h1, h2]

theorem wrapShort_idem (x : Int) : wrapShort (wrapShort x) = wrapShort x := by
  unfold wrapShort; omega

theorem wrapShort_add (a b : Int) : wrapShort (wrapShort a + b) = wrapShort (a + b) := by
  unfold wrapShort; omega

theorem scanDiagonal_done (data : List Int) (n possnumll : Nat) (offset : Int) (ld : Nat)
    (fuel j : Nat) (s : ScanState) (h : ld ≤ j) :
    scanDiagonal data n possnumll offset ld fuel j s = s := by
  cases fuel with
  | zero => rfl
  | succ fuel =>
    have : ¬ j < ld := by omega
    simp only [scanDiagonal, if_neg this]

theorem scanDiagonal_no_ones_diag (data : List Int) (n possnumll : Nat) (offset : Int)
    (ld : Nat) (h : ∀ j, j < ld → data.getD (diagIndex n offset j) 0 ≠ 1) (fuel j : Nat)
    (s : ScanState) : scanDiagonal data n possnumll offset ld fuel j s = s := by
  induction fuel generalizing j with
  | zero => rfl
  | succ fuel ih =>
    unfold scanDiagonal
    by_cases h1 : j < ld
    · rw [if_pos h1, if_neg (h j h1)]
      exact ih (j + 1)
    · rw [if_neg h1]

theorem extendLine_all_ones (data : List Int) (n : Nat) (offset : Int) (ld : Nat)
    (hones : ∀ j, j < ld → data.getD (diagIndex n offset j) 0 = 1)
    (fuel k : Nat) (s : ScanState) (v : Int) (hk : k ≤ ld) (hfuel : ld - k ≤ fuel)
    (hidx : s.nlines - 1 < s.ll.length) (hv : s.ll.getD (s.nlines - 1) 0 = v)
    (hwrap : wrapShort v = v) :
    extendLine data n offset ld fuel k s
      = (ld, { ll := s.ll.set (s.nlines - 1) (wrapShort (v + ((ld - k : Nat) : Int))),
               nlines := s.nlines, ones := s.ones + (ld - k) }) := by
  induction fuel generalizing k s v with
  | zero =>
    have hkld : k = ld := by omega
    subst hkld
    simp only [extendLine, Nat.sub_self, Nat.cast_zero, add_zero, hwrap, Nat.add_zero]
    congr 1
    cases s with
    | mk ll nlines ones =>
      simp only at hidx hv ⊢
      congr 1
      apply List.ext_getElem
      · simp
      · intro m h1 h2
        rw [List.getElem_set]
        split_ifs with hm
        · subst hm
          rw [← hv, List.getD_eq_getElem _ _ hidx]
        · rfl
  | succ fuel ih =>
    by_cases hlt : k < ld
    · rw [extendLine, if_pos hlt, if_pos (hones k hlt)]
      rw [ih (k + 1) _ (wrapShort (v + 1)) (by omega) (by omega) (by simpa using hidx)
        (by
          simp only
          rw [hv, List.getD_eq_getElem _ _ (by simpa using hidx)]
          simp) (wrapShort_idem _)]
      simp only [List.set_set]
      have e1 : wrapShort (wrapShort (v + 1) + ((ld - (k + 1) : Nat) : Int))
          = wrapShort (v + ((ld - k : Nat) : Int)) := by
        rw [wrapShort_add]
        congr 1
        omega
      have e2 : s.ones + 1 + (ld - (k + 1)) = s.ones + (ld - k) := by omega
      rw [e1, e2]
    · have hkld : k = ld := by omega
      subst hkld
      simp only [extendLine, if_neg hlt, Nat.sub_self, Nat.cast_zero, add_zero, hwrap,
        Nat.add_zero]
      congr 1
      cases s with
      | mk ll nlines ones =>
        simp only at hidx hv ⊢
        congr 1
        apply List.ext_getElem
        · simp
        · intro m h1 h2
          rw [List.getElem_set]
          split_ifs with hm
          · subst hm
            rw [← hv, List.getD_eq_getElem _ _ hidx]
          · rfl

theorem foldl_scanStep_preserve (data : List Int) (n cap : Nat) (is : List Nat)
    (h : ∀ i ∈ is, ∀ st : LineScan, (scanStep data n cap st i).ll = st.ll
      ∧ (scanStep data n cap st i).nlines = st.nlines) (st : LineScan) :
    (is.foldl (scanStep data n cap) st).ll = st.ll
      ∧ (is.foldl (scanStep data n cap) st).nlines = st.nlines := by
  induction is generalizing st with
  | nil => exact ⟨rfl, rfl⟩
  | cons i is ih =>
    rw [List.foldl_cons]
    obtain ⟨h1, h2⟩ := ih (fun j hj => h j (List.mem_cons_of_mem _ hj)) (scanStep data n cap st i)
    obtain ⟨h3, h4⟩ := h i (List.mem_cons_self _ _) st
    exact ⟨h1.trans h3, h2.trans h4⟩

theorem scanStep_identity_off (n cap i : Nat) (_hi : i < 2 * n - 1) (hne : i ≠ n - 1)
    (st : LineScan) :
    (scanStep (identityMatrix n) n cap st i).ll = st.ll
      ∧ (scanStep (identityMatrix n) n cap st i).nlines = st.nlines := by
  have hno : ∀ j, j < n - ((i : Int) - (n : Int) + 1).natAbs →
      (identityMatrix n).getD (diagIndex n ((i : Int) - (n : Int) + 1) j) 0 ≠ 1 := by
    intro j hj
    by_cases h : n ≤ i + 1
    · rw [diagIndex_upper n i j h, identityMatrix_getD n j (j + (i + 1 - n)) (by omega) (by omega),
        if_neg (by omega)]
      decide
    · rw [diagIndex_lower n i j (by omega),
        identityMatrix_getD n (j + (n - 1 - i)) j (by omega) (by omega), if_neg (by omega)]
      decide
  simp only [scanStep, scanDiagonal_no_ones_diag _ n cap _ _ hno, and_self]

theorem scanStep_identity_main (n cap : Nat) (hn : 1 ≤ n) (hcap : 1 ≤ cap) (ll : List Int)
    (hll : ll.length = cap) (recur : List (Nat × Nat)) :
    (scanStep (identityMatrix n) n cap { ll := ll, nlines := 0, recur := recur } (n - 1)).ll
        = ll.set 0 (wrapShort (n : Int))
      ∧ (scanStep (identityMatrix n) n cap { ll := ll, nlines := 0, recur := recur }
          (n - 1)).nlines = 1 := by
  have hoff : ((n - 1 : Nat) : Int) - (n : Int) + 1 = 0 := by omega
  have hones : ∀ j, j < n → (identityMatrix n).getD (diagIndex n 0 j) 0 = 1 := by
    intro j hj
    have : diagIndex n 0 j = j * n + j := by simp [diagIndex]
    rw [this, identityMatrix_getD n j j hj hj, if_pos rfl]
  obtain ⟨m, rfl⟩ : ∃ m, n = m + 1 := ⟨n - 1, by omega⟩
  have hnc : ¬ (0 + 1 > cap) := by omega
  have hext := extendLine_all_ones (identityMatrix (m + 1)) (m + 1) 0 (m + 1) hones (m + 1) (0 + 1)
    { ll := ll.set 0 1, nlines := 1, ones := 0 + 1 } 1 (by omega) (by omega)
    (by simp only [List.length_set]; omega)
    (by
      simp only [Nat.sub_self]
      rw [List.getD_eq_getElem _ _ (by simp only [List.length_set]; omega)]
      simp) (by decide)
  simp only [Nat.sub_self, List.set_set] at hext
  have hw : wrapShort (1 + (((m + 1 - (0 + 1) : Nat)) : Int)) = wrapShort ((m + 1 : Nat) : Int) := by
    congr 1
    omega
  rw [hw] at hext
  simp only [scanStep, hoff, Int.natAbs_zero, Nat.sub_zero]
  rw [scanDiagonal, if_pos (by omega), if_pos (hones 0 (by omega))]
  simp only [if_neg hnc, Nat.add_sub_cancel]
  rw [hext, scanDiagonal_done _ _ _ _ _ _ _ _ (le_refl _)]
  exact ⟨rfl, rfl⟩

/-- On the identity pattern the scan finds one line, of wrapped length. -/
theorem scanLines_identity (n : Nat) (hn : 2 ≤ n) :
    (scanLines (identityMatrix n) n).nlines = 1
      ∧ (scanLines (identityMatrix n) n).ll.take 1 = [wrapShort (n : Int)] := by
  have hcap : 1 ≤ n * n / 2 := by
    have : 4 ≤ n * n := by nlinarith
    omega
  have hsplit : 2 * n - 1 = (n - 1) + (1 + (n - 1)) := by omega
  unfold scanLines
  rw [hsplit, List.range_add, List.range_add, List.foldl_append, List.map_append,
    List.foldl_append]
  have hr1 : List.range 1 = [0] := rfl
  simp only [hr1, List.map_cons, List.map_nil, Nat.add_zero, List.foldl_cons,
    List.foldl_nil]
  obtain ⟨a1, a2⟩ := foldl_scanStep_preserve (identityMatrix n) n (n * n / 2)
    (List.range (n - 1))
    (fun i hi st => scanStep_identity_off n _ i (by
      simp only [List.mem_range] at hi; omega) (by
      simp only [List.mem_range] at hi; omega) st)
    { ll := List.replicate (n * n / 2) 0, nlines := 0, recur := [] }
  generalize hst1 : (List.range (n - 1)).foldl (scanStep (identityMatrix n) n (n * n / 2))
    { ll := List.replicate (n * n / 2) 0, nlines := 0, recur := [] } = st1 at a1 a2
  obtain ⟨ll1, nl1, rc1⟩ := st1
  simp only at a1 a2
  subst a1 a2
  obtain ⟨b1, b2⟩ := scanStep_identity_main n (n * n / 2) (by omega) hcap
    (List.replicate (n * n / 2) 0) (by simp) rc1
  obtain ⟨c1, c2⟩ := foldl_scanStep_preserve (identityMatrix n) n (n * n / 2)
    (List.map (fun x => n - 1 + x) (List.map (fun x => 1 + x) (List.range (n - 1))))
    (fun i hi st => scanStep_identity_off n _ i (by
      simp only [List.mem_map, List.mem_range] at hi
      obtain ⟨a, ⟨b, hb, rfl⟩, rfl⟩ := hi
      omega) (by
      simp only [List.mem_map, List.mem_range] at hi
      obtain ⟨a, ⟨b, hb, rfl⟩, rfl⟩ := hi
      omega) st)
    (scanStep (identityMatrix n) n (n * n / 2)
      { ll := List.replicate (n * n / 2) 0, nlines := 0, recur := rc1 } (n - 1))
  rw [c1, c2, b1, b2]
  refine ⟨rfl, ?_⟩
  obtain ⟨c, hc⟩ : ∃ c, n * n / 2 = c + 1 := ⟨n * n / 2 - 1, by omega⟩
  rw [hc]
  simp [List.replicate_succ]

theorem onesCount_identity (n : Nat) : onesCount (identityMatrix n) n = n := by
  unfold onesCount
  have hfilter : (Finset.range n ×ˢ Finset.range n).filter
        (fun p => (identityMatrix n).getD (p.1 * n + p.2) 0 = 1)
      = (Finset.range n ×ˢ Finset.range n).filter (fun p => p.1 = p.2) := by
    apply Finset.filter_congr
    rintro ⟨r, c⟩ hp
    simp only [Finset.mem_product, Finset.mem_range] at hp
    simp only
    rw [identityMatrix_getD n r c hp.1 hp.2]
    by_cases h : r = c
    · simp [h]
    · simp [h]
  rw [hfilter]
  have := Finset.card_nbij' (s := (Finset.range n ×ˢ Finset.range n).filter (fun p => p.1 = p.2))
    (t := Finset.range n) (fun p => p.1) (fun i => (i, i))
    (by
      rintro ⟨r, c⟩ hp
      simp only [Finset.mem_filter, Finset.mem_product, Finset.mem_range] at hp
      simpa using hp.1.1)
    (by
      intro i hi
      simp only [Finset.mem_range] at hi
      simp [hi])
    (by
      rintro ⟨r, c⟩ hp
      simp only [Finset.mem_filter, Finset.mem_product, Finset.mem_range] at hp
      simp [hp.2])
    (by intro i _; rfl)
  rw [this, Finset.card_range]

theorem runLengthsAux_all_true (cur : Nat) (bs : List Bool) (h : ∀ b ∈ bs, b = true) :
    (runLengthsAux cur bs).length ≤ 1 := by
  induction bs generalizing cur with
  | nil =>
    simp only [runLengthsAux]
    split_ifs <;> simp
  | cons b bs ih =>
    have hb : b = true := h b (List.mem_cons_self _ _)
    subst hb
    simp only [runLengthsAux]
    exact ih (cur + 1) (fun b hb => h b (List.mem_cons_of_mem _ hb))

theorem lineCount_identity (n : Nat) (hn : 1 ≤ n) : lineCount (identityMatrix n) n ≤ 1 := by
  rw [lineCount_eq_sum]
  have hbound : ∀ i ∈ Finset.range (2 * n - 1),
      (runLengths (diagCells (identityMatrix n) n i)).length ≤ if i = n - 1 then 1 else 0 := by
    intro i hi
    simp only [Finset.mem_range] at hi
    by_cases him : i = n - 1
    · rw [if_pos him]
      apply runLengthsAux_all_true
      intro b hb
      subst him
      have hoff : ((n - 1 : Nat) : Int) - (n : Int) + 1 = 0 := by omega
      simp only [diagCells, diagCellsAt, hoff, Int.natAbs_zero, Nat.sub_zero, List.mem_map,
        List.mem_range] at hb
      obtain ⟨j, hj, rfl⟩ := hb
      have : diagIndex n 0 j = j * n + j := by simp [diagIndex]
      simp only [cellAt, this, identityMatrix_getD n j j hj hj, if_true, decide_True]
    · rw [if_neg him]
      have : runLengths (diagCells (identityMatrix n) n i) = [] := by
        apply runLengthsAux_all_false
        intro b hb
        simp only [diagCells, diagCellsAt, List.mem_map, List.mem_range] at hb
        obtain ⟨j, hj, rfl⟩ := hb
        simp only [cellAt, decide_eq_false_iff_not]
        by_cases h : n ≤ i + 1
        · rw [diagIndex_upper n i j h,
            identityMatrix_getD n j (j + (i + 1 - n)) (by omega) (by omega), if_neg (by omega)]
          decide
        · rw [diagIndex_lower n i j (by omega),
            identityMatrix_getD n (j + (n - 1 - i)) j (by omega) (by omega), if_neg (by omega)]
          decide
      rw [this]; exact le_refl _
  refine le_trans (Finset.sum_le_sum hbound) ?_
  rw [Finset.sum_ite_eq' (Finset.range (2 * n - 1)) (n - 1) (fun _ => 1)]
  split_ifs <;> omega

theorem rqa_stats_cross_reports_zero (sqrt log : K → K) (d : PyArray K) (rescale : Int)
    (rad : K) (diag_ignore minl : Int) (r : RqaResult K)
    (hr : rqa_stats sqrt log d rescale rad diag_ignore minl "cross" = .ok r) :
    r.rs.diag_ignore = 0 := by
  simp only [rqa_stats] at hr
  split at hr
  · cases hr
  · split at hr
    · cases hr
    · split at hr
      · cases hr
      · split at hr
        · cases hr
        · split at hr
          · cases hr
          · cases hr
            simp

theorem exists_list_max (l : List Int) (hne : l ≠ []) : ∃ m ∈ l, ∀ x ∈ l, x ≤ m := by
  induction l with
  | nil => exact absurd rfl hne
  | cons a l ih =>
    by_cases hl : l = []
    · subst hl
      exact ⟨a, List.mem_cons_self _ _, by simp⟩
    · obtain ⟨m, hm, hmax⟩ := ih hl
      by_cases ham : a ≤ m
      · refine ⟨m, List.mem_cons_of_mem _ hm, ?_⟩
        intro x hx
        rcases List.mem_cons.mp hx with rfl | hx
        · exact ham
        · exact hmax x hx
      · refine ⟨a, List.mem_cons_self _ _, ?_⟩
        intro x hx
        rcases List.mem_cons.mp hx with rfl | hx
        · exact le_refl _
        · exact le_trans (hmax x hx) (by omega)

/-- Without enough data for the first sequence `rqa_dist` fails. -/
theorem rqa_dist_error (sqrt : K → K) (a b : PyArray K) (dim lag : Int)
    (ha : 1 ≤ a.ndim) (hb : 1 ≤ b.ndim)
    (hn2 : ((a.shape.getD 0 0 : Nat) : Int) - lag * (dim - 1) ≤ 0) :
    rqa_dist sqrt a b dim lag = .error "Not enough data for these embedding parameters." := by
  have h1 : ¬ (a.ndim < 1 ∨ b.ndim < 1) := by omega
  unfold rqa_dist
  rw [if_neg h1]
  simp only [if_pos hn2]

theorem mapIncr_keys (v : Int) (m : List (Int × Nat)) (x : Int) :
    x ∈ (mapIncr v m).map Prod.fst ↔ x = v ∨ x ∈ m.map Prod.fst := by
  induction m with
  | nil => simp [mapIncr]
  | cons kc rest ih =>
    obtain ⟨k, c⟩ := kc
    unfold mapIncr
    split_ifs with h1 h2
    · simp
    · subst h2
      simp
    · simp only [List.map_cons, List.mem_cons, ih]
      tauto

theorem mapIncr_sorted (v : Int) (m : List (Int × Nat))
    (h : (m.map Prod.fst).Pairwise (· < ·)) :
    ((mapIncr v m).map Prod.fst).Pairwise (· < ·) := by
  induction m with
  | nil => simp [mapIncr]
  | cons kc rest ih =>
    obtain ⟨k, c⟩ := kc
    simp only [List.map_cons, List.pairwise_cons] at h
    unfold mapIncr
    split_ifs with h1 h2
    · simp only [List.map_cons, List.pairwise_cons, List.mem_cons, forall_eq_or_imp]
      exact ⟨⟨h1, fun a ha => lt_trans h1 (h.1 a ha)⟩, h.1, h.2⟩
    · simp only [List.map_cons, List.pairwise_cons]
      exact h
    · simp only [List.map_cons, List.pairwise_cons]
      refine ⟨?_, ih h.2⟩
      intro a ha
      rcases (mapIncr_keys v rest a).mp ha with rfl | ha
      · omega
      · exact h.1 a ha

theorem mapIncr_count_sum (v : Int) (m : List (Int × Nat)) :
    ((mapIncr v m).map Prod.snd).sum = (m.map Prod.snd).sum + 1 := by
  induction m with
  | nil => simp [mapIncr]
  | cons kc rest ih =>
    obtain ⟨k, c⟩ := kc
    unfold mapIncr
    split_ifs with h1 h2
    · simp; omega
    · simp; omega
    · simp only [List.map_cons, List.sum_cons, ih]; omega

theorem mapIncr_weighted_sum (v : Int) (m : List (Int × Nat)) :
    ((mapIncr v m).map (fun r => r.1 * (r.2 : Int))).sum
      = (m.map (fun r => r.1 * (r.2 : Int))).sum + v := by
  induction m with
  | nil => simp [mapIncr]
  | cons kc rest ih =>
    obtain ⟨k, c⟩ := kc
    unfold mapIncr
    split_ifs with h1 h2
    · simp; ring
    · subst h2
      simp; ring
    · simp only [List.map_cons, List.sum_cons, ih]; ring

theorem mapIncr_entry (v : Int) (m : List (Int × Nat))
    (h : (m.map Prod.fst).Pairwise (· < ·)) (k : Int) (c : Nat) (hkc : (k, c) ∈ mapIncr v m) :
    (k ≠ v ∧ (k, c) ∈ m)
      ∨ (k = v ∧ ((∃ c0, (v, c0) ∈ m ∧ c = c0 + 1) ∨ (v ∉ m.map Prod.fst ∧ c = 1))) := by
  induction m with
  | nil =>
    simp only [mapIncr, List.mem_singleton, Prod.mk.injEq] at hkc
    right
    exact ⟨hkc.1, Or.inr ⟨by simp, hkc.2⟩⟩
  | cons kc0 rest ih =>
    obtain ⟨k0, c0⟩ := kc0
    simp only [List.map_cons, List.pairwise_cons] at h
    unfold mapIncr at hkc
    split_ifs at hkc with h1 h2
    · have hv : v ∉ ((k0, c0) :: rest).map Prod.fst := by
        simp only [List.map_cons, List.mem_cons, not_or]
        refine ⟨by omega, fun hmem => ?_⟩
        have := h.1 v hmem
        omega
      rcases List.mem_cons.mp hkc with heq | hmem
      · simp only [Prod.mk.injEq] at heq
        right
        exact ⟨heq.1, Or.inr ⟨hv, heq.2⟩⟩
      · left
        refine ⟨?_, hmem⟩
        intro hkv
        apply hv
        rw [← hkv]
        exact List.mem_map_of_mem Prod.fst hmem
    · subst h2
      rcases List.mem_cons.mp hkc with heq | hmem
      · simp only [Prod.mk.injEq] at heq
        right
        exact ⟨heq.1, Or.inl ⟨c0, List.mem_cons_self _ _, heq.2⟩⟩
      · left
        have hk : k ∈ rest.map Prod.fst := List.mem_map_of_mem Prod.fst hmem
        have := h.1 k hk
        exact ⟨by omega, List.mem_cons_of_mem _ hmem⟩
    · rcases List.mem_cons.mp hkc with heq | hmem
      · simp only [Prod.mk.injEq] at heq
        left
        refine ⟨by omega, ?_⟩
        rw [heq.1, heq.2]
        exact List.mem_cons_self _ _
      · rcases ih h.2 hmem with ⟨a1, a2⟩ | ⟨a1, ⟨c1, b1, b2⟩ | ⟨b1, b2⟩⟩
        · left; exact ⟨a1, List.mem_cons_of_mem _ a2⟩
        · right; exact ⟨a1, Or.inl ⟨c1, List.mem_cons_of_mem _ b1, b2⟩⟩
        · right
          refine ⟨a1, Or.inr ⟨?_, b2⟩⟩
          simp only [List.map_cons, List.mem_cons, not_or]
          exact ⟨by omega, b1⟩

theorem freqInv_step (p : List Int) (m : List (Int × Nat)) (v : Int) (h : FreqInv p m) :
    FreqInv (p ++ [v]) (mapIncr v m) := by
  obtain ⟨h1, h2, h3, h4, h5⟩ := h
  refine ⟨mapIncr_sorted v m h1, ?_, ?_, ?_, ?_⟩
  · intro k c hkc
    rcases mapIncr_entry v m h1 k c hkc with ⟨a1, a2⟩ | ⟨a1, ⟨c0, b1, b2⟩ | ⟨b1, b2⟩⟩
    · obtain ⟨e1, e2⟩ := h2 k c a2
      refine ⟨?_, e2⟩
      rw [List.count_append, ← e1]
      simp [List.count_cons, List.count_nil, Ne.symm a1]
    · obtain ⟨e1, e2⟩ := h2 v c0 b1
      subst a1
      refine ⟨?_, by omega⟩
      rw [List.count_append, ← e1, b2]
      simp
    · subst a1
      have hk : k ∉ p := fun hmem => b1 (h3 k hmem)
      refine ⟨?_, by omega⟩
      rw [List.count_append, List.count_eq_zero_of_not_mem hk, b2]
      simp
  · intro k hk
    rw [mapIncr_keys]
    rcases List.mem_append.mp hk with hk | hk
    · right; exact h3 k hk
    · left; simpa using hk
  · rw [mapIncr_count_sum, h4]; simp
  · rw [mapIncr_weighted_sum, h5]; simp

theorem freqInv_foldl (valid p : List Int) (m : List (Int × Nat)) (h : FreqInv p m) :
    FreqInv (p ++ valid) (valid.foldl (fun m v => mapIncr v m) m) := by
  induction valid generalizing p m with
  | nil => simpa using h
  | cons v valid ih =>
    rw [List.foldl_cons]
    have := ih (p ++ [v]) (mapIncr v m) (freqInv_step p m v h)
    simpa using this

theorem lineFreq_inv (valid : List Int) : FreqInv valid (lineFreq valid) := by
  have h0 : FreqInv [] [] := ⟨by simp, by simp, by simp, by simp, by simp⟩
  simpa [lineFreq] using freqInv_foldl valid [] [] h0

/-- The loop of lines 363-367 subtracts one term per positive probability. -/
theorem entropy_foldl (log : K → K) (s : K) (l : List K) (acc : K) :
    l.foldl (fun acc x => let p := x / s; if p > 0 then acc - p * log p / log 2 else acc) acc
      = acc - (l.map (fun x => if x / s > 0 then x / s * log (x / s) / log 2 else 0)).sum := by
  induction l generalizing acc with
  | nil => simp
  | cons x l ih =>
    rw [List.foldl_cons, ih, List.map_cons, List.sum_cons]
    by_cases h : x / s > 0
    · simp only [h, if_true]; ring
    · simp only [h, if_false]; ring

/-- On valid arguments `rqa_entropy` returns the entropy and the deficit. -/
theorem rqa_entropy_value (log : K → K) (distr : PyArray K) (nstates : Int)
    (hvec : distr.ndim = 1) (hn : 0 < nstates) (hsum : distr.data.sum ≠ 0) :
    rqa_entropy log distr nstates
      = .ok [0 - (distr.data.map (fun x => if x / distr.data.sum > 0
                then x / distr.data.sum * log (x / distr.data.sum) / log 2 else 0)).sum,
             log (nstates : K) / log 2
              - (0 - (distr.data.map (fun x => if x / distr.data.sum > 0
                then x / distr.data.sum * log (x / distr.data.sum) / log 2 else 0)).sum)] := by
  have h0 : ¬ nstates ≤ 0 := by omega
  have h1 : ¬ distr.ndim ≠ 1 := by simp [hvec]
  unfold rqa_entropy
  rw [if_neg h1, if_neg h0]
  simp only [hsum, if_false, entropy_foldl]

theorem sum_eq_getD_of_single (l : List K) (i : Nat)
    (hzero : ∀ j, j ≠ i → l.getD j 0 = 0) : l.sum = l.getD i 0 := by
  induction l generalizing i with
  | nil => simp
  | cons x l ih =>
    cases i with
    | zero =>
      have hl : ∀ y ∈ l, y = 0 := by
        intro y hy
        obtain ⟨j, hj, rfl⟩ := List.getElem_of_mem hy
        have := hzero (j + 1) (by omega)
        simpa [List.getD_eq_getElem?_getD, List.getElem?_eq_getElem hj] using this
      have hs : l.sum = 0 := List.sum_eq_zero hl
      simp [hs]
    | succ i =>
      have hx : x = 0 := by simpa using hzero 0 (by omega)
      have := ih i (fun j hj => by simpa using hzero (j + 1) (by omega))
      simp [hx, this]

theorem mem_single_cases (l : List K) (i : Nat) (hzero : ∀ j, j ≠ i → l.getD j 0 = 0)
    (y : K) (hy : y ∈ l) : y = 0 ∨ y = l.getD i 0 := by
  obtain ⟨j, hj, rfl⟩ := List.getElem_of_mem hy
  by_cases hji : j = i
  · right
    subst hji
    simp [List.getD_eq_getElem?_getD, List.getElem?_eq_getElem hj]
  · left
    have := hzero j hji
    simpa [List.getD_eq_getElem?_getD, List.getElem?_eq_getElem hj] using this

theorem sum_map_div_const (l : List ℝ) (c : ℝ) : (l.map (fun x => x / c)).sum = l.sum / c := by
  induction l with
  | nil => simp
  | cons x l ih => rw [List.map_cons, List.sum_cons, List.sum_cons, ih]; ring

theorem sum_map_eq_neg_div (l : List ℝ) (f g : ℝ → ℝ) (c : ℝ) (h : ∀ x, f x = -(g x) / c) :
    (l.map f).sum = -(l.map g).sum / c := by
  induction l with
  | nil => simp
  | cons x l ih => rw [List.map_cons, List.sum_cons, List.map_cons, List.sum_cons, ih, h]; ring

/-- One term of the entropy sum is bounded through `log x ≤ x - 1`. -/
theorem entropy_term_le (p M : ℝ) (hp : 0 < p) (hM : 0 < M) :
    -(p * Real.log p) ≤ (Real.log M - 1) * p + 1 / M := by
  have hx : 0 < 1 / (M * p) := by positivity
  have h := Real.log_le_sub_one_of_pos hx
  rw [Real.log_div one_ne_zero (ne_of_gt (mul_pos hM hp)), Real.log_one,
    Real.log_mul (ne_of_gt hM) (ne_of_gt hp)] at h
  have h2 : p * (0 - (Real.log M + Real.log p)) ≤ p * (1 / (M * p) - 1) :=
    mul_le_mul_of_nonneg_left h (le_of_lt hp)
  have h3 : p * (1 / (M * p) - 1) = 1 / M - p := by
    field_simp
    ring
  rw [h3] at h2
  linarith

theorem entropy_terms_le (l : List ℝ) (M : ℝ) (hM : 0 < M) (hl : ∀ p ∈ l, 0 ≤ p) :
    (l.map (fun p => if p > 0 then -(p * Real.log p) else 0)).sum
      ≤ (Real.log M - 1) * l.sum + 1 / M * (l.countP (fun p => decide (0 < p)) : ℝ) := by
  induction l with
  | nil => simp
  | cons p l ih =>
    have ih' := ih (fun q hq => hl q (List.mem_cons_of_mem _ hq))
    rw [List.map_cons, List.sum_cons, List.sum_cons, List.countP_cons]
    by_cases hp : 0 < p
    · have ht := entropy_term_le p M hp hM
      simp only [gt_iff_lt, hp, if_true, decide_True, Nat.cast_add, Nat.cast_one]
      nlinarith
    · have hp0 : p = 0 := le_antisymm (not_lt.mp hp) (hl p (List.mem_cons_self _ _))
      subst hp0
      simp only [gt_iff_lt, lt_self_iff_false, if_false, decide_False, Bool.false_eq_true,
        Nat.add_zero, zero_add]
      linarith

theorem entropy_terms_nonneg (l : List ℝ) (hl : ∀ p ∈ l, 0 ≤ p ∧ p ≤ 1) :
    0 ≤ (l.map (fun p => if p > 0 then -(p * Real.log p) else 0)).sum := by
  apply List.sum_nonneg
  intro t ht
  obtain ⟨p, hp, rfl⟩ := List.mem_map.mp ht
  split_ifs with h
  · have := Real.log_nonpos (hl p hp).1 (hl p hp).2
    nlinarith
  · exact le_refl _

/-! ### Maximal runs -/

/-- Cells that hold no `1` before a run do not change the runs. -/
theorem runLengths_false_cons (bs : List Bool) : runLengths (false :: bs) = runLengths bs := by
  simp [runLengths, runLengthsAux]

theorem runLengthsAux_replicate_true (cur k : Nat) (bs : List Bool) :
    runLengthsAux cur (List.replicate k true ++ bs) = runLengthsAux (cur + k) bs := by
  induction k generalizing cur with
  | zero => simp
  | succ k ih =>
    rw [List.replicate_succ, List.cons_append]
    simp only [runLengthsAux]
    rw [ih]
    congr 1
    omega

/-- A run of `k + 1` cells closed by a cell without `1` is one line of length `k + 1`. -/
theorem runLengths_run_cons (k : Nat) (bs : List Bool) :
    runLengths (List.replicate (k + 1) true ++ false :: bs) = (k + 1) :: runLengths bs := by
  rw [runLengths, runLengthsAux_replicate_true]
  simp [runLengthsAux, runLengths]

/-- A run of `k + 1` cells that reaches the end of the diagonal is one line. -/
theorem runLengths_run_end (k : Nat) : runLengths (List.replicate (k + 1) true) = [k + 1] := by
  have := runLengthsAux_replicate_true 0 (k + 1) []
  rw [List.append_nil] at this
  rw [runLengths, this]
  simp [runLengthsAux]

theorem runLengthsAux_bounds (cur : Nat) (bs : List Bool) :
    ∀ l ∈ runLengthsAux cur bs, 1 ≤ l ∧ l ≤ cur + bs.length := by
  induction bs generalizing cur with
  | nil =>
    intro l hl
    by_cases h : cur = 0
    · simp [runLengthsAux, h] at hl
    · simp only [runLengthsAux, h, if_false, List.mem_singleton] at hl
      subst hl
      simp only [List.length_nil]
      omega
  | cons b bs ih =>
    intro l hl
    cases b with
    | true =>
      simp only [runLengthsAux] at hl
      have := ih (cur + 1) l hl
      simp only [List.length_cons]
      omega
    | false =>
      by_cases h : cur = 0
      · simp only [runLengthsAux, h, if_true] at hl
        have := ih 0 l hl
        simp only [List.length_cons]
        omega
      · simp only [runLengthsAux, h, if_false, List.mem_cons] at hl
        rcases hl with rfl | hl
        · simp only [List.length_cons]
          omega
        · have := ih 0 l hl
          simp only [List.length_cons]
          omega

theorem diagCells_length (data : List Int) (n i : Nat) :
    (diagCells data n i).length = n - ((i : Int) - (n : Int) + 1).natAbs := by
  simp [diagCells, diagCellsAt]

/-! ### Invariants of the scan that hold also when the buffer is full -/

theorem sum_set_le (l : List Int) (i : Nat) (v : Int) (h : ∀ x ∈ l, 0 ≤ x) (hv : 0 ≤ v) :
    (l.set i v).sum ≤ l.sum + v := by
  induction l generalizing i with
  | nil => simpa using hv
  | cons a l ih =>
    have ha : 0 ≤ a := h a (List.mem_cons_self _ _)
    have hl : ∀ x ∈ l, 0 ≤ x := fun x hx => h x (List.mem_cons_of_mem _ hx)
    cases i with
    | zero =>
      have : 0 ≤ l.sum := List.sum_nonneg hl
      simp only [List.set_cons_zero, List.sum_cons]
      omega
    | succ i =>
      have := ih i hl
      simp only [List.set_cons_succ, List.sum_cons]
      omega

/-- Scanning a diagonal keeps every stored length between `1` and `B`, never
lowers the line counter, and adds at most the ones of the diagonal to the sum
of the stored lengths; this holds also when the buffer is full. -/
theorem scanDiagonal_bounds (data : List Int) (n cap : Nat) (offset : Int) (ld : Nat)
    (B : Int) (hcap : 1 ≤ cap) (hld : ld ≤ 32767)
    (hB : ∀ j, j < ld → data.getD (diagIndex n offset j) 0 = 1 → (ld : Int) ≤ B)
    (fuel j : Nat) (s : ScanState)
    (hj : j ≤ ld) (hfuel : ld - j ≤ fuel) (hlen : s.ll.length = cap) (hnl : s.nlines ≤ cap)
    (hent : ∀ x ∈ s.ll.take s.nlines, 1 ≤ x ∧ x ≤ B) :
    (scanDiagonal data n cap offset ld fuel j s).ll.length = cap
    ∧ (scanDiagonal data n cap offset ld fuel j s).nlines ≤ cap
    ∧ (∀ x ∈ (scanDiagonal data n cap offset ld fuel j s).ll.take
          (scanDiagonal data n cap offset ld fuel j s).nlines, 1 ≤ x ∧ x ≤ B)
    ∧ s.nlines ≤ (scanDiagonal data n cap offset ld fuel j s).nlines
    ∧ ((scanDiagonal data n cap offset ld fuel j s).ll.take
          (scanDiagonal data n cap offset ld fuel j s).nlines).sum
        ≤ (s.ll.take s.nlines).sum + (((diagCellsAt data n offset ld).drop j).count true : Nat)
    ∧ (1 ≤ ((diagCellsAt data n offset ld).drop j).count true →
        1 ≤ (scanDiagonal data n cap offset ld fuel j s).nlines) := by
  induction fuel generalizing j s with
  | zero =>
    rw [diagCellsAt_drop_end _ _ _ _ _ (by omega)]
    simp only [scanDiagonal]
    refine ⟨hlen, hnl, hent, le_refl _, by simp, by simp⟩
  | succ fuel ih =>
    by_cases hlt : j < ld
    · by_cases hc : data.getD (diagIndex n offset j) 0 = 1
      · have hcell : cellAt data n offset j = true := decide_eq_true hc
        have hldB : (ld : Int) ≤ B := hB j hlt hc
        obtain ⟨nl, hnldef⟩ : ∃ nl, nl = (if s.nlines + 1 > cap then cap else s.nlines + 1) :=
          ⟨_, rfl⟩
        have hnl1 : 1 ≤ nl := by rw [hnldef]; split_ifs <;> omega
        have hnlc : nl ≤ cap := by rw [hnldef]; split_ifs <;> omega
        have hnls : s.nlines ≤ nl := by rw [hnldef]; split_ifs <;> omega
        have hidx : nl - 1 < s.ll.length := by omega
        obtain ⟨t, h1, h2, h3, _, h5⟩ := extendLine_spec data n offset ld ld (j + 1)
          { ll := s.ll.set (nl - 1) 1, nlines := nl, ones := s.ones + 1 } 1
          (by omega) (by omega) hnl1 (by simp; omega)
          (by simp [List.getD_eq_getElem?_getD, List.getElem?_set, hidx]) (le_refl _)
          (by omega)
        simp only [List.set_set] at h3
        have hstep : scanDiagonal data n cap offset ld (fuel + 1) j s
            = scanDiagonal data n cap offset ld fuel (j + 1 + t)
                { ll := s.ll.set (nl - 1) ((1 + t : Nat) : Int), nlines := nl,
                  ones := s.ones + 1 + t } := by
          simp only [scanDiagonal, hlt, if_true, hc]
          rw [← hnldef, h1, h3]
        have hent' : ∀ x ∈ (s.ll.set (nl - 1) ((1 + t : Nat) : Int)).take nl,
            1 ≤ x ∧ x ≤ B := by
          intro x hx
          by_cases hclamp : s.nlines + 1 > cap
          · have hnleq : nl = s.nlines := by rw [hnldef, if_pos hclamp]; omega
            rw [List.set_take] at hx
            rcases List.mem_or_eq_of_mem_set hx with h | h
            · rw [hnleq] at h; exact hent x h
            · rw [h]; push_cast; omega
          · have hnleq : nl = s.nlines + 1 := by rw [hnldef, if_neg hclamp]
            have e : (s.ll.set (nl - 1) ((1 + t : Nat) : Int)).take nl
                = s.ll.take s.nlines ++ [((1 + t : Nat) : Int)] := by
              rw [hnleq]
              exact take_set_succ _ _ _ (by omega)
            rw [e, List.mem_append] at hx
            rcases hx with h | h
            · exact hent x h
            · rw [List.mem_singleton.mp h]; push_cast; omega
        have hsum' : ((s.ll.set (nl - 1) ((1 + t : Nat) : Int)).take nl).sum
            ≤ (s.ll.take s.nlines).sum + ((1 + t : Nat) : Int) := by
          by_cases hclamp : s.nlines + 1 > cap
          · have hnleq : nl = s.nlines := by rw [hnldef, if_pos hclamp]; omega
            rw [List.set_take, hnleq]
            exact sum_set_le _ _ _ (fun x hx => by have := hent x hx; omega) (by omega)
          · have hnleq : nl = s.nlines + 1 := by rw [hnldef, if_neg hclamp]
            have e : (s.ll.set (nl - 1) ((1 + t : Nat) : Int)).take nl
                = s.ll.take s.nlines ++ [((1 + t : Nat) : Int)] := by
              rw [hnleq]
              exact take_set_succ _ _ _ (by omega)
            rw [e]; simp
        obtain ⟨i1, i2, i3, i4, i5, _⟩ := ih (j + 1 + t)
          { ll := s.ll.set (nl - 1) ((1 + t : Nat) : Int), nlines := nl,
            ones := s.ones + 1 + t } (by omega) (by omega) (by simp [hlen]) hnlc hent'
        rw [hstep]
        refine ⟨i1, i2, i3, le_trans hnls i4, ?_, fun _ => le_trans hnl1 i4⟩
        rw [diagCellsAt_drop _ _ _ _ _ hlt, hcell, List.count_cons_self, h5]
        simp only at i5
        push_cast at i5 hsum' ⊢
        omega
      · have hcell : cellAt data n offset j = false := decide_eq_false hc
        have hstep : scanDiagonal data n cap offset ld (fuel + 1) j s
            = scanDiagonal data n cap offset ld fuel (j + 1) s := by
          simp only [scanDiagonal, hlt, if_true, hc, if_false]
        have hcnt : ((diagCellsAt data n offset ld).drop j).count true
            = ((diagCellsAt data n offset ld).drop (j + 1)).count true := by
          rw [diagCellsAt_drop _ _ _ _ _ hlt, hcell]; simp
        rw [hstep, hcnt]
        exact ih (j + 1) s (by omega) (by omega) hlen hnl hent
    · rw [diagCellsAt_drop_end _ _ _ _ _ (by omega)]
      simp only [scanDiagonal, hlt, if_false]
      refine ⟨hlen, hnl, hent, le_refl _, by simp, by simp⟩

theorem scanStep_bounds (data : List Int) (n cap : Nat) (B : Int) (hcap : 1 ≤ cap)
    (hn : n ≤ 32767) (st : LineScan) (i : Nat)
    (hB : ∀ j, j < n - ((i : Int) - (n : Int) + 1).natAbs →
      data.getD (diagIndex n ((i : Int) - (n : Int) + 1) j) 0 = 1 →
      ((n - ((i : Int) - (n : Int) + 1).natAbs : Nat) : Int) ≤ B)
    (hlen : st.ll.length = cap) (hnl : st.nlines ≤ cap)
    (hent : ∀ x ∈ st.ll.take st.nlines, 1 ≤ x ∧ x ≤ B) :
    (scanStep data n cap st i).ll.length = cap
    ∧ (scanStep data n cap st i).nlines ≤ cap
    ∧ (∀ x ∈ (scanStep data n cap st i).ll.take (scanStep data n cap st i).nlines,
        1 ≤ x ∧ x ≤ B)
    ∧ st.nlines ≤ (scanStep data n cap st i).nlines
    ∧ ((scanStep data n cap st i).ll.take (scanStep data n cap st i).nlines).sum
        ≤ (st.ll.take st.nlines).sum + (((diagCells data n i).count true : Nat) : Int)
    ∧ (1 ≤ (diagCells data n i).count true → 1 ≤ (scanStep data n cap st i).nlines) := by
  have h := scanDiagonal_bounds data n cap ((i : Int) - (n : Int) + 1)
    (n - ((i : Int) - (n : Int) + 1).natAbs) B hcap (by omega) hB
    (n - ((i : Int) - (n : Int) + 1).natAbs) 0
    { ll := st.ll, nlines := st.nlines, ones := 0 } (Nat.zero_le _) (by omega) hlen hnl hent
  simp only [List.drop_zero] at h
  exact h

theorem foldl_scanStep_bounds (data : List Int) (n cap : Nat) (B : Int) (hcap : 1 ≤ cap)
    (hn : n ≤ 32767) (is : List Nat) (st : LineScan)
    (hB : ∀ i ∈ is, ∀ j, j < n - ((i : Int) - (n : Int) + 1).natAbs →
      data.getD (diagIndex n ((i : Int) - (n : Int) + 1) j) 0 = 1 →
      ((n - ((i : Int) - (n : Int) + 1).natAbs : Nat) : Int) ≤ B)
    (hlen : st.ll.length = cap) (hnl : st.nlines ≤ cap)
    (hent : ∀ x ∈ st.ll.take st.nlines, 1 ≤ x ∧ x ≤ B) :
    (is.foldl (scanStep data n cap) st).ll.length = cap
    ∧ (∀ x ∈ (is.foldl (scanStep data n cap) st).ll.take
        (is.foldl (scanStep data n cap) st).nlines, 1 ≤ x ∧ x ≤ B)
    ∧ st.nlines ≤ (is.foldl (scanStep data n cap) st).nlines
    ∧ ((is.foldl (scanStep data n cap) st).ll.take
          (is.foldl (scanStep data n cap) st).nlines).sum
        ≤ (st.ll.take st.nlines).sum
          + (((is.map (fun i => (diagCells data n i).count true)).sum : Nat) : Int)
    ∧ (1 ≤ (is.map (fun i => (diagCells data n i).count true)).sum →
        1 ≤ (is.foldl (scanStep data n cap) st).nlines) := by
  induction is generalizing st with
  | nil => exact ⟨hlen, hent, le_refl _, by simp, by simp⟩
  | cons i is ih =>
    obtain ⟨s1, s2, s3, s4, s5, s6⟩ := scanStep_bounds data n cap B hcap hn st i
      (hB i (List.mem_cons_self _ _)) hlen hnl hent
    obtain ⟨f0, f1, f2, f3, f4⟩ := ih (scanStep data n cap st i)
      (fun k hk => hB k (List.mem_cons_of_mem _ hk)) s1 s2 s3
    simp only [List.foldl_cons, List.map_cons, List.sum_cons]
    refine ⟨f0, f1, le_trans s4 f2, ?_, ?_⟩
    · push_cast at f3 s5 ⊢
      omega
    · intro h
      by_cases hc : 1 ≤ (diagCells data n i).count true
      · exact le_trans (s6 hc) f2
      · exact f4 (by omega)

/-- Every cell of diagonal number `i` lies at distance `|offset|` from the main
diagonal. -/
theorem diagIndex_cell (n i j : Nat) (_hi : i < 2 * n - 1)
    (hj : j < n - ((i : Int) - (n : Int) + 1).natAbs) :
    ∃ r c, r < n ∧ c < n ∧ diagIndex n ((i : Int) - (n : Int) + 1) j = r * n + c
      ∧ |(r : Int) - (c : Int)| = (((i : Int) - (n : Int) + 1).natAbs : Int) := by
  by_cases h : n ≤ i + 1
  · refine ⟨j, j + (i + 1 - n), by omega, by omega, diagIndex_upper n i j h, ?_⟩
    rw [Int.abs_eq_natAbs]
    omega
  · refine ⟨j + (n - 1 - i), j, by omega, by omega, diagIndex_lower n i j (by omega), ?_⟩
    rw [Int.abs_eq_natAbs]
    omega

/-- For `2 ≤ n ≤ 32767`, whatever the number of lines: every returned length is
at least `1` and at most `B`, a bound on the length of the diagonals that hold a
`1`; the lengths sum to at most the number of ones; and a `1` in the matrix
gives at least one line. -/
theorem scanLines_bounds (data : List Int) (n : Nat) (hn2 : 2 ≤ n) (hn : n ≤ 32767) (B : Int)
    (hB : ∀ r c, r < n → c < n → data.getD (r * n + c) 0 = 1 →
      (n : Int) - |(r : Int) - (c : Int)| ≤ B) :
    (∀ x ∈ (scanLines data n).ll.take (scanLines data n).nlines, 1 ≤ x ∧ x ≤ B)
    ∧ ((scanLines data n).ll.take (scanLines data n).nlines).sum ≤ (onesCount data n : Int)
    ∧ (1 ≤ onesCount data n →
        (scanLines data n).ll.take (scanLines data n).nlines ≠ []) := by
  have hcap : 1 ≤ n * n / 2 := by
    have : 4 ≤ n * n := by nlinarith
    omega
  obtain ⟨f0, f1, _, f3, f4⟩ := foldl_scanStep_bounds data n (n * n / 2) B hcap hn
    (List.range (2 * n - 1))
    { ll := List.replicate (n * n / 2) 0, nlines := 0, recur := [] }
    (by
      intro i hi j hj hc
      obtain ⟨r, c, hr, hcn, hidx, habs⟩ := diagIndex_cell n i j (List.mem_range.mp hi) hj
      rw [hidx] at hc
      have := hB r c hr hcn hc
      rw [habs] at this
      omega)
    (by simp) (Nat.zero_le _) (by simp)
  have hsum : ((List.range (2 * n - 1)).map (fun i => (diagCells data n i).count true)).sum
      = onesCount data n := by
    rw [sum_map_range_eq_finset, diag_count_eq_onesCount]
  rw [hsum] at f3 f4
  refine ⟨f1, ?_, ?_⟩
  · simpa [scanLines] using f3
  · intro h1 hnil
    have hlen := congrArg List.length hnil
    have hnl : 1 ≤ (scanLines data n).nlines := f4 h1
    have hl : (scanLines data n).ll.length = n * n / 2 := f0
    rw [List.length_take, hl] at hlen
    simp only [List.length_nil] at hlen
    omega

/-! ### The stages of `rqa_stats` on a valid input -/

/-- The entries of the matrix returned by `rqa_radius`. -/
theorem rqa_radius_entries (n : Nat) (d : PyArray K) (rescale : Int) (rad : K)
    (diag_ignore : Int) (hshape : d.shape = [n, n]) (hn : 2 ≤ n) (hrad : 0 < rad)
    (hdi : 0 ≤ diag_ignore) :
    ∃ td, rqa_radius d rescale rad diag_ignore = .ok td
      ∧ td.shape = [n, n] ∧ td.data.length = n * n
      ∧ ∀ i j, i < n → j < n →
          td.data.getD (i * n + j) 0
            = if |(i : Int) - (j : Int)| < diag_ignore then 0
              else if (rescaleDist rescale d.data).getD (i * n + j) 0 ≤ rad then 1 else 0 := by
  refine ⟨_, rqa_radius_ok n d rescale rad diag_ignore hshape hn hrad hdi, rfl, ?_, ?_⟩
  · by_cases h0 : diag_ignore = 0
    · simp [h0]
    · simp only [ne_eq, h0, not_false_eq_true, if_true]
      exact (zeroDiagonals_spec n _ (by simp) _).1
  · intro i j hi hj
    have hidx : i * n + j < n * n := by nlinarith
    by_cases h0 : diag_ignore = 0
    · have : ¬ (|(i : Int) - (j : Int)| < diag_ignore) := by
        rw [h0]; exact not_lt.mpr (abs_nonneg _)
      rw [if_neg this]
      simp only [h0, ne_eq, not_true_eq_false, if_false]
      rw [getD_map_range _ _ _ _ hidx]
    · simp only [ne_eq, h0, not_false_eq_true, if_true]
      rw [(zeroDiagonals_spec n _ (by simp) _).2 i j hi hj]
      have : (j < i + diag_ignore.toNat ∧ i < j + diag_ignore.toNat)
          ↔ |(i : Int) - (j : Int)| < diag_ignore := by
        rw [abs_lt]
        omega
      simp only [this]
      rw [getD_map_range _ _ _ _ hidx]

theorem onesOutsideBand_le (data : List Int) (n : Nat) (diag_ignore : Int) :
    onesOutsideBand data n diag_ignore ≤ consideredCells n diag_ignore := by
  unfold onesOutsideBand consideredCells
  apply Finset.card_le_card
  intro p hp
  simp only [Finset.mem_filter] at hp ⊢
  exact ⟨hp.1, hp.2.1⟩

theorem onesOutsideBand_pos (data : List Int) (n : Nat) (diag_ignore : Int)
    (h : 1 ≤ onesOutsideBand data n diag_ignore) : diag_ignore ≤ (n : Int) - 1 := by
  unfold onesOutsideBand at h
  obtain ⟨p, hp⟩ := Finset.card_pos.mp h
  simp only [Finset.mem_filter, Finset.mem_product, Finset.mem_range] at hp
  obtain ⟨⟨h1, h2⟩, h3, _⟩ := hp
  have : |(p.1 : Int) - (p.2 : Int)| ≤ (n : Int) - 1 := by
    rw [abs_le]; omega
  omega

theorem sum_ge_length (l : List Int) (h : ∀ x ∈ l, 1 ≤ x) : (l.length : Int) ≤ l.sum := by
  induction l with
  | nil => simp
  | cons a l ih =>
    have ha := h a (List.mem_cons_self _ _)
    have := ih (fun x hx => h x (List.mem_cons_of_mem _ hx))
    simp only [List.length_cons, List.sum_cons]
    push_cast
    omega

theorem sum_filter_le (l : List Int) (p : Int → Bool) (h : ∀ x ∈ l, 0 ≤ x) :
    0 ≤ (l.filter p).sum ∧ (l.filter p).sum ≤ l.sum := by
  induction l with
  | nil => simp
  | cons a l ih =>
    have ha := h a (List.mem_cons_self _ _)
    obtain ⟨h1, h2⟩ := ih (fun x hx => h x (List.mem_cons_of_mem _ hx))
    by_cases hp : p a = true
    · rw [List.filter_cons_of_pos hp]
      simp only [List.sum_cons]
      omega
    · rw [List.filter_cons_of_neg hp]
      simp only [List.sum_cons]
      omega

/-- The result of `rqa_line` on a matrix whose band `|i - j| < diag_ignore` is
zero, for `2 ≤ n ≤ 32767`: every length lies between `1` and `n - diag_ignore`,
the lengths sum to at most the number of ones, and a `1` gives a line. -/
theorem rqa_line_bounds (td : PyArray Int) (n : Nat) (diag_ignore : Int)
    (hshape : td.shape = [n, n]) (hn2 : 2 ≤ n) (hn : n ≤ 32767)
    (hband : ∀ i j, i < n → j < n → |(i : Int) - (j : Int)| < diag_ignore →
      td.data.getD (i * n + j) 0 = 0) :
    ∃ lr, rqa_line K td diag_ignore = .ok lr
      ∧ lr.ll.shape = [lr.ll.data.length]
      ∧ lr.npts = nptsOf (n : Int) diag_ignore
      ∧ lr.maxl_poss = (n : Int) - diag_ignore
      ∧ (∀ x ∈ lr.ll.data, 1 ≤ x ∧ x ≤ (n : Int) - diag_ignore)
      ∧ lr.ll.data.sum ≤ (onesOutsideBand td.data n diag_ignore : Int)
      ∧ (1 ≤ onesOutsideBand td.data n diag_ignore → lr.ll.data ≠ []) := by
  obtain ⟨lr, hlr, hdata, hsh, hnpts, hmax⟩ :=
    rqa_line_ok (K := K) td n diag_ignore hshape (by omega)
  obtain ⟨b1, b2, b3⟩ := scanLines_bounds td.data n hn2 hn ((n : Int) - diag_ignore)
    (by
      intro r c hr hc h1
      by_contra hlt
      have hlt' : |(r : Int) - (c : Int)| < diag_ignore := by omega
      rw [hband r c hr hc hlt'] at h1
      exact absurd h1 (by decide))
  rw [← hdata, onesCount_eq_outside td.data n diag_ignore hband] at b2 b3
  rw [← hdata] at b1
  exact ⟨lr, hlr, hsh, hnpts, hmax, b1, b2, b3⟩

/-- The two outcomes of `rqa_histlines` on a vector with `minl ≥ 1`. -/
theorem rqa_histlines_cases (sqrt : K → K) (llengths : PyArray Int) (minl : Int)
    (hvec : llengths.ndim = 1) (hminl : 1 ≤ minl) :
    ∃ lh st, rqa_histlines sqrt llengths minl = .ok (lh, st)
      ∧ ((validLines llengths.data minl = [] ∧ lh = ⟨[1, 2], [0, 0]⟩)
        ∨ (validLines llengths.data minl ≠ []
          ∧ lh = ⟨[(lineFreq (validLines llengths.data minl)).length, 2],
                  histRows (lineFreq (validLines llengths.data minl))⟩)) := by
  by_cases hne : validLines llengths.data minl = []
  · have h0 : ¬ minl ≤ 0 := by omega
    have h1 : ¬ llengths.ndim ≠ 1 := by simp [hvec]
    refine ⟨⟨[1, 2], [0, 0]⟩, { mean := 0, std := 0, count := 0 }, ?_, Or.inl ⟨hne, rfl⟩⟩
    unfold rqa_histlines
    rw [if_neg h1, if_neg h0]
    simp only [hne, List.isEmpty_nil, if_true]
  · exact ⟨_, _, rqa_histlines_ok sqrt llengths minl hvec hminl hne, Or.inr ⟨hne, rfl⟩⟩

theorem histRows_getD (rows : List (Int × Nat)) (i : Nat) (hi : i < rows.length) :
    (histRows rows : List K).getD (i * 2) 0 = ((rows.getD i (0, 0)).1 : K)
    ∧ (histRows rows : List K).getD (i * 2 + 1) 0 = ((rows.getD i (0, 0)).2 : K) := by
  induction rows generalizing i with
  | nil => simp at hi
  | cons r rows ih =>
    have hcons : (histRows (r :: rows) : List K)
        = (r.1 : K) :: (r.2 : K) :: histRows rows := rfl
    cases i with
    | zero => rw [hcons]; simp
    | succ i =>
      have hi' : i < rows.length := by simpa using hi
      obtain ⟨h1, h2⟩ := ih i hi'
      have e1 : (i + 1) * 2 = i * 2 + 1 + 1 := by ring
      have e2 : (i + 1) * 2 + 1 = i * 2 + 1 + 1 + 1 := by ring
      rw [hcons, e2, e1]
      simp only [List.getD_cons_succ]
      exact ⟨h1, h2⟩

theorem map_range_congr_getD {α β : Type} (l : List α) (dflt : α) (f : α → β) (g : Nat → β)
    (h : ∀ i, i < l.length → g i = f (l.getD i dflt)) :
    (List.range l.length).map g = l.map f := by
  apply List.ext_getElem
  · simp
  · intro i h1 h2
    have hi : i < l.length := by simpa using h2
    simp only [List.getElem_map, List.getElem_range]
    rw [h i hi, List.getD_eq_getElem _ _ hi]

theorem freqColumn_histRows (rows : List (Int × Nat)) :
    freqColumn (⟨[rows.length, 2], histRows rows⟩ : PyArray K)
      = rows.map (fun r => (r.2 : K)) := by
  unfold freqColumn
  simp only [List.getD_cons_zero]
  exact map_range_congr_getD rows (0, 0) (fun r => (r.2 : K)) _
    (fun i hi => (histRows_getD rows i hi).2)

theorem detLoop_foldl_fst (f g : Nat → K) (is : List Nat) (acc : K × K) :
    (is.foldl (fun (acc : K × K) i => (acc.1 + f i * g i, if f i > acc.2 then f i else acc.2))
      acc).1 = acc.1 + (is.map (fun i => f i * g i)).sum := by
  induction is generalizing acc with
  | nil => simp
  | cons i is ih =>
    simp only [List.foldl_cons, List.map_cons, List.sum_cons]
    rw [ih]
    ring

theorem detLoop_histRows (rows : List (Int × Nat)) :
    (detLoop (⟨[rows.length, 2], histRows rows⟩ : PyArray K)).1
      = (((rows.map (fun r => r.1 * (r.2 : Int))).sum : Int) : K) := by
  unfold detLoop
  simp only [List.getD_cons_zero]
  rw [detLoop_foldl_fst (fun i => (histRows rows : List K).getD (i * 2) 0)
    (fun i => (histRows rows : List K).getD (i * 2 + 1) 0)]
  rw [map_range_congr_getD rows (0, 0) (fun r => (r.1 : K) * (r.2 : K)) _
    (fun i hi => by rw [(histRows_getD rows i hi).1, (histRows_getD rows i hi).2])]
  rw [zero_add]
  induction rows with
  | nil => simp
  | cons r rows ih =>
    simp only [List.map_cons, List.sum_cons]
    rw [ih]
    push_cast
    ring

theorem sum_map_natCast (l : List Nat) :
    (l.map (fun (c : Nat) => (c : K))).sum = ((l.sum : Nat) : K) := by
  induction l with
  | nil => simp
  | cons a l ih =>
    simp only [List.map_cons, List.sum_cons]
    rw [ih]
    push_cast
    ring

/-- The value returned by `rqa_stats` when every stage succeeds. -/
theorem rqa_stats_value (sqrt log : K → K) (d : PyArray K) (rescale : Int) (rad : K)
    (diag_ignore minl : Int) (rqa_mode : String) (td : PyArray Int) (lr : LineResult K)
    (lh : PyArray K) (st : LineStats K) (ent : List K)
    (hrad : rqa_radius d rescale rad (if rqa_mode = "cross" then 0 else diag_ignore) = .ok td)
    (hline : rqa_line K td (if rqa_mode = "cross" then 0 else diag_ignore) = .ok lr)
    (hsz : lr.ll.size ≠ 0)
    (hhist : rqa_histlines sqrt lr.ll minl = .ok (lh, st))
    (hent : (if lh.size > 2 then
        rqa_entropy log ⟨[lh.shape.getD 0 0], freqColumn lh⟩ (lr.maxl_poss - minl + 1)
      else .ok [0, 0]) = .ok ent) :
    ∃ r, rqa_stats sqrt log d rescale rad diag_ignore minl rqa_mode = .ok r
      ∧ r.err_code = 0
      ∧ r.rs.perc_recur = 100 * ((lr.ll.data.sum : Int) : K) / ((lr.npts : Int) : K)
      ∧ r.rs.perc_determ
          = (if lh.size > 0 then 100 * (detLoop lh).1 / ((lr.ll.data.sum : Int) : K) else 0)
      ∧ r.rs.npts = lr.npts ∧ r.rs.maxl_poss = lr.maxl_poss ∧ r.rs.minl = minl
      ∧ r.mats.ll = lr.ll ∧ r.mats.lh = lh := by
  simp only [rqa_stats, hrad, hline, hsz, if_false, hhist, hent]
  refine ⟨_, rfl, rfl, rfl, ?_, rfl, rfl, rfl, rfl, rfl⟩
  dsimp only
  split_ifs <;> rfl

/-- The histogram of a list of lengths between `1` and `B`: the first column
times the second sums to between `0` and the sum of the lengths, and when the
table has more than one row, `B - minl + 1 ≥ 2` and the second column has a
positive sum. -/
theorem histogram_facts (sqrt : K → K) (ll : PyArray Int) (minl B : Int)
    (hvec : ll.ndim = 1) (hminl : 1 ≤ minl) (hb : ∀ x ∈ ll.data, 1 ≤ x ∧ x ≤ B) :
    ∃ lh st, rqa_histlines sqrt ll minl = .ok (lh, st)
      ∧ (lh.size > 2 → 2 ≤ B - minl + 1 ∧ 0 < (freqColumn lh).sum
          ∧ (⟨[lh.shape.getD 0 0], freqColumn lh⟩ : PyArray K).ndim = 1)
      ∧ 0 ≤ (detLoop lh).1 ∧ (detLoop lh).1 ≤ ((ll.data.sum : Int) : K) := by
  obtain ⟨lh, st, hhist, hcases⟩ := rqa_histlines_cases sqrt ll minl hvec hminl
  have hsum0 : (0 : Int) ≤ ll.data.sum :=
    List.sum_nonneg (fun x hx => by have := hb x hx; omega)
  refine ⟨lh, st, hhist, ?_⟩
  rcases hcases with ⟨_, hlh⟩ | ⟨hne, hlh⟩
  · subst hlh
    have e : (detLoop (⟨[1, 2], [0, 0]⟩ : PyArray K)).1 = 0 := by
      simp [detLoop, List.range_succ]
    rw [e]
    exact ⟨fun h => absurd h (by simp [PyArray.size]), le_refl _, by exact_mod_cast hsum0⟩
  · obtain ⟨hsorted, hcount, _, hcsum, hwsum⟩ := lineFreq_inv (validLines ll.data minl)
    have hkey : ∀ r ∈ lineFreq (validLines ll.data minl), minl ≤ r.1 ∧ r.1 ≤ B := by
      intro r hr
      obtain ⟨hc, hc1⟩ := hcount r.1 r.2 hr
      have hpos : 0 < (validLines ll.data minl).count r.1 := by omega
      have hmem := List.count_pos_iff.mp hpos
      obtain ⟨hm1, hm2⟩ := List.mem_filter.mp hmem
      exact ⟨by simpa using hm2, (hb r.1 hm1).2⟩
    have hfl := sum_filter_le ll.data (fun l => decide (l ≥ minl))
      (fun x hx => by have := hb x hx; omega)
    subst hlh
    rw [detLoop_histRows, hwsum]
    refine ⟨?_, by exact_mod_cast hfl.1, by exact_mod_cast hfl.2⟩
    intro hsz
    have hlen2 : 2 ≤ (lineFreq (validLines ll.data minl)).length := by
      simp only [PyArray.size, List.prod_cons, List.prod_nil, mul_one] at hsz
      omega
    refine ⟨?_, ?_, rfl⟩
    · match hrows : lineFreq (validLines ll.data minl), hlen2 with
      | r0 :: r1 :: rest, _ =>
        rw [hrows] at hsorted hkey
        have hlt : r0.1 < r1.1 := by
          simp only [List.map_cons, List.pairwise_cons, List.mem_cons] at hsorted
          exact hsorted.1 r1.1 (Or.inl rfl)
        have h0 := hkey r0 (List.mem_cons_self _ _)
        have h1 := hkey r1 (List.mem_cons_of_mem _ (List.mem_cons_self _ _))
        omega
    · rw [freqColumn_histRows]
      have e : (lineFreq (validLines ll.data minl)).map (fun r => (r.2 : K))
          = ((lineFreq (validLines ll.data minl)).map Prod.snd).map
              (fun (c : Nat) => (c : K)) := by
        rw [List.map_map]; rfl
      rw [e, sum_map_natCast, hcsum]
      have : 0 < (validLines ll.data minl).length := List.length_pos.mpr hne
      exact_mod_cast this

theorem radius_diagonalDistances (n : Nat) (hn : 2 ≤ n) :
    rqa_radius (diagonalDistances K n) 0 1 0 = .ok ⟨[n, n], identityMatrix n⟩ := by
  rw [rqa_radius_ok n (diagonalDistances K n) 0 1 0 rfl hn one_pos (le_refl _)]
  simp only [ne_eq, not_true_eq_false, if_false]
  have e : (List.range (n * n)).map
      (fun i => if (rescaleDist 0 (diagonalDistances K n).data).getD i 0 ≤ (1 : K)
        then (1 : Int) else 0) = identityMatrix n := by
    unfold identityMatrix
    apply List.map_congr_left
    intro i hi
    have hi' : i < n * n := List.mem_range.mp hi
    have hr : rescaleDist 0 (diagonalDistances K n).data = (diagonalDistances K n).data := by
      simp [rescaleDist]
    rw [hr, diagonalDistances, getD_map_range _ _ _ _ hi']
    by_cases hd : i / n = i % n
    · simp [hd]
    · have : ¬ ((2 : K) ≤ 1) := by norm_num
      simp [hd, this]
  rw [e]

/-- On the `32768 × 32768` distance matrix with `0` on the main diagonal and `2`
elsewhere, with radius `1`, `rqa_stats` succeeds and reports the single line of
`32768` points as a line of length `-32768`. -/
theorem rqa_stats_overflow (sqrt log : K → K) (rqa_mode : String) :
    ∃ r, rqa_stats sqrt log (diagonalDistances K 32768) 0 1 0 1 rqa_mode = .ok r
      ∧ r.err_code = 0
      ∧ r.mats.ll.data = [-32768]
      ∧ r.rs.perc_recur = 100 * ((-32768 : Int) : K) / (((32768 * 32768 : Int)) : K) := by
  have hrad : rqa_radius (diagonalDistances K 32768) 0 1
      (if rqa_mode = "cross" then 0 else 0) = .ok ⟨[32768, 32768], identityMatrix 32768⟩ := by
    rw [ite_self]
    exact radius_diagonalDistances 32768 (by norm_num)
  obtain ⟨lr, hline, hdata, hsh, hnpts, _⟩ :=
    rqa_line_ok (K := K) ⟨[32768, 32768], identityMatrix 32768⟩ 32768 0 rfl (by norm_num)
  obtain ⟨i1, i2⟩ := scanLines_identity 32768 (by norm_num)
  have hd : lr.ll.data = [-32768] := by
    rw [hdata]
    simp only at i1 i2 ⊢
    rw [i1, i2]
    decide
  have hsh' : lr.ll.shape = [1] := by rw [hsh, hd]; rfl
  have hsz : lr.ll.size ≠ 0 := by simp [PyArray.size, hsh']
  have hline' : rqa_line K ⟨[32768, 32768], identityMatrix 32768⟩
      (if rqa_mode = "cross" then 0 else 0) = .ok lr := by
    rw [ite_self]; exact hline
  obtain ⟨lh, st, hhist, hcases⟩ := rqa_histlines_cases sqrt lr.ll 1
    (by simp [PyArray.ndim, hsh']) (le_refl _)
  have hlh : lh = ⟨[1, 2], [0, 0]⟩ := by
    rcases hcases with ⟨_, h⟩ | ⟨hne, _⟩
    · exact h
    · exact absurd (by rw [hd]; decide) hne
  have hent : (if lh.size > 2 then
        rqa_entropy log ⟨[lh.shape.getD 0 0], freqColumn lh⟩ (lr.maxl_poss - 1 + 1)
      else .ok [0, 0]) = .ok [0, 0] := by
    rw [hlh]
    simp [PyArray.size]
  obtain ⟨r, hr, herr, hperc, _, _, _, _, hll, _⟩ := rqa_stats_value sqrt log
    (diagonalDistances K 32768) 0 1 0 1 rqa_mode _ lr lh st [0, 0] hrad hline' hsz hhist hent
  refine ⟨r, hr, herr, by rw [hll, hd], ?_⟩
  rw [hperc, hd, hnpts]
  simp [nptsOf]

/-! ### The trends -/

end Lemmas

/-! ## The properties -/

section Claims

variable {K : Type} [LinearOrderedField K]

/-- Claim C1 (amended): for an `n × n` matrix with `1 ≤ n ≤ 32767` whose cells
on the diagonals with `|offset| < diag_ignore` are `0`, and for which either
the number of maximal diagonal runs does not exceed the capacity `n² / 2` of the
line buffer or `diag_ignore ≥ 1`, `rqa_line` returns line lengths whose sum is
the number of `1` cells, which is the number of `1` cells outside the excluded
band. -/
theorem line_length_sum_eq_ones_within_capacity (thrd : PyArray Int) (n : Nat)
    (diag_ignore : Int) (hshape : thrd.shape = [n, n]) (_hlen : thrd.data.length = n * n)
    (hn : 1 ≤ n) (hshort : n ≤ 32767)
    (hband : ∀ i j, i < n → j < n → |(i : Int) - (j : Int)| < diag_ignore →
      thrd.data.getD (i * n + j) 0 = 0)
    (hcap : lineCount thrd.data n ≤ n * n / 2 ∨ 1 ≤ diag_ignore) :
    ∃ r, rqa_line K thrd diag_ignore = .ok r
      ∧ r.ll.data.sum = (onesCount thrd.data n : Int)
      ∧ r.ll.data.sum = (onesOutsideBand thrd.data n diag_ignore : Int) := by
  have hcap' : lineCount thrd.data n ≤ n * n / 2 := by
    rcases hcap with h | h
    · exact h
    · refine lineCount_le_capacity thrd.data n hn (fun j hj => hband j j hj hj ?_)
      rw [sub_self, abs_zero]
      omega
  obtain ⟨r, hr, hdata, _, _, _⟩ := rqa_line_ok (K := K) thrd n diag_ignore hshape hn
  have hsum : r.ll.data.sum = (onesCount thrd.data n : Int) := by
    rw [hdata, (scanLines_spec thrd.data n hshort hcap').2.1, ← Nat.cast_list_sum,
      allRuns_sum, diag_count_eq_onesCount]
  refine ⟨r, hr, hsum, ?_⟩
  rw [hsum, onesCount_eq_outside thrd.data n diag_ignore hband]

/-- Witness for C1: the `2 × 2` matrix with ones off the main diagonal,
`diag_ignore = 1`. -/
theorem line_length_sum_eq_ones_within_capacity_witness :
    ∃ r, rqa_line ℚ ⟨[2, 2], [0, 1, 1, 0]⟩ 1 = .ok r
      ∧ r.ll.data.sum = (onesCount [0, 1, 1, 0] 2 : Int)
      ∧ r.ll.data.sum = (onesOutsideBand [0, 1, 1, 0] 2 1 : Int) :=
  line_length_sum_eq_ones_within_capacity ⟨[2, 2], [0, 1, 1, 0]⟩ 2 1 rfl rfl (by decide)
    (by decide)
    (by
      intro i j hi hj h
      have hij : i = j := by
        rw [abs_lt] at h
        omega
      subst hij
      interval_cases i <;> rfl)
    (Or.inr (by decide))

/-- Counterexample to C1 as stated.  On the `2 × 2` all-ones matrix with
`diag_ignore = 0` there are three diagonal runs but room for two lines: the
returned lengths are `[1, 1]`, of sum `2`, while the matrix holds four ones.
On the `32768 × 32768` matrix with ones on the main diagonal only (one run,
within the capacity) the length `32768` does not fit the 16-bit buffer: the
returned length is `-32768` while the matrix holds `32768` ones. -/
theorem line_length_sum_counterexample :
    (∃ r, rqa_line ℚ ⟨[2, 2], [1, 1, 1, 1]⟩ 0 = .ok r
      ∧ r.ll.data = [1, 1] ∧ r.ll.data.sum = 2
      ∧ onesCount [1, 1, 1, 1] 2 = 4 ∧ onesOutsideBand [1, 1, 1, 1] 2 0 = 4
      ∧ lineCount [1, 1, 1, 1] 2 = 3)
    ∧ (∃ r, rqa_line ℚ ⟨[32768, 32768], identityMatrix 32768⟩ 0 = .ok r
      ∧ r.ll.data = [-32768]
      ∧ onesCount (identityMatrix 32768) 32768 = 32768
      ∧ lineCount (identityMatrix 32768) 32768 ≤ 32768 * 32768 / 2) := by
  refine ⟨⟨_, rfl, by decide, by decide, by decide, by decide, by decide⟩, ?_⟩
  obtain ⟨r, hr, hdata, _, _, _⟩ :=
    rqa_line_ok (K := ℚ) ⟨[32768, 32768], identityMatrix 32768⟩ 32768 0 rfl (by norm_num)
  obtain ⟨h1, h2⟩ := scanLines_identity 32768 (by norm_num)
  refine ⟨r, hr, ?_, onesCount_identity 32768, ?_⟩
  · rw [hdata]
    simp only at h1 h2 ⊢
    rw [h1, h2]
    decide
  · exact le_trans (lineCount_identity 32768 (by norm_num)) (by norm_num)

/-- Claim C6: on the `4 × 4` distance matrix of ones, with radius `1`, no
rescaling and `diag_ignore = 0`, `rqa_radius` returns the all-ones matrix,
`rqa_line` returns the seven lengths `1, 2, 3, 4, 3, 2, 1`, and `rqa_stats`
(in mode `cross`, or with `diag_ignore = 0`, for every valid `minl ≥ 1`)
returns a result that reports `perc_recur = 100`. -/
theorem all_ones_four_roundtrip (sqrt log : K → K) (rescale diag_ignore minl : Int)
    (rqa_mode : String) (hnone : rescale ≠ 1 ∧ rescale ≠ 2) (hminl : 1 ≤ minl)
    (hmode : rqa_mode = "cross" ∨ diag_ignore = 0) :
    rqa_radius (allOnes4 K) rescale 1 0 = .ok ⟨[4, 4], List.replicate 16 1⟩
    ∧ (∃ lr, rqa_line K ⟨[4, 4], List.replicate 16 1⟩ 0 = .ok lr
        ∧ lr.ll = ⟨[7], [1, 2, 3, 4, 3, 2, 1]⟩)
    ∧ (∃ r, rqa_stats sqrt log (allOnes4 K) rescale 1 diag_ignore minl rqa_mode = .ok r
        ∧ r.td = ⟨[4, 4], List.replicate 16 1⟩
        ∧ r.mats.ll = ⟨[7], [1, 2, 3, 4, 3, 2, 1]⟩
        ∧ r.rs.perc_recur = 100) := by
  have hrad := radius_allOnes4 (K := K) rescale hnone.1 hnone.2
  obtain ⟨lr, hlr, hdata, hshape, hnpts, hmaxl⟩ :=
    rqa_line_ok (K := K) ⟨[4, 4], List.replicate 16 1⟩ 4 0 rfl (by norm_num)
  have hll : lr.ll = ⟨[7], [1, 2, 3, 4, 3, 2, 1]⟩ := by
    have hd : lr.ll.data = [1, 2, 3, 4, 3, 2, 1] := by
      rw [hdata, scan_allOnes4]; rfl
    cases hl : lr.ll with
    | mk sh dt =>
      rw [hl] at hd hshape
      simp only at hd hshape
      rw [hshape, hd]; rfl
  refine ⟨hrad, ⟨lr, hlr, hll⟩, ?_⟩
  have hdi : (if rqa_mode = "cross" then (0 : Int) else diag_ignore) = 0 := by
    rcases hmode with h | h
    · simp [h]
    · simp [h]
  obtain ⟨lh, st, ent, hh, he⟩ := histlines_allOnes4 sqrt log minl hminl
  have hmaxl4 : lr.maxl_poss = 4 := by rw [hmaxl]; norm_num
  obtain ⟨r, hr, htd, _, hperc, _, _, _, _, _, hmll, _⟩ :=
    rqa_stats_ok sqrt log (allOnes4 K) rescale 1 diag_ignore minl rqa_mode _ lr lh st ent
      (by rw [hdi]; exact hrad) (by rw [hdi]; exact hlr)
      (by rw [hll]; simp [PyArray.size]) (by rw [hll]; exact hh)
      (by rw [hmaxl4]; exact he)
  refine ⟨r, hr, htd, by rw [hmll, hll], ?_⟩
  rw [hperc, hnpts, hll]
  norm_num [nptsOf]

/-- Witness for C6: mode `cross` with a caller-supplied `diag_ignore = 3`, `minl = 2`. -/
theorem all_ones_four_roundtrip_witness :
    rqa_radius (allOnes4 ℚ) 0 1 0 = .ok ⟨[4, 4], List.replicate 16 1⟩
    ∧ (∃ lr, rqa_line ℚ ⟨[4, 4], List.replicate 16 1⟩ 0 = .ok lr
        ∧ lr.ll = ⟨[7], [1, 2, 3, 4, 3, 2, 1]⟩)
    ∧ (∃ r, rqa_stats (fun x => x) (fun x => x) (allOnes4 ℚ) 0 1 3 2 "cross" = .ok r
        ∧ r.td = ⟨[4, 4], List.replicate 16 1⟩
        ∧ r.mats.ll = ⟨[7], [1, 2, 3, 4, 3, 2, 1]⟩
        ∧ r.rs.perc_recur = 100) :=
  all_ones_four_roundtrip (fun x => x) (fun x => x) 0 3 2 "cross" ⟨by decide, by decide⟩
    (by decide) (Or.inl rfl)

/-- Claim C7: in mode `cross`, `rqa_stats` gives the same outcome (the same
result or the same failure) for every caller-supplied `diag_ignore`, negative
ones included, as for `diag_ignore = 0`, and a returned result reports
`diag_ignore = 0`. -/
theorem analyze_cross_ignores_diag_ignore (sqrt log : K → K) (d : PyArray K) (rescale : Int)
    (rad : K) (diag_ignore minl : Int) :
    rqa_stats sqrt log d rescale rad diag_ignore minl "cross"
        = rqa_stats sqrt log d rescale rad 0 minl "cross"
      ∧ (fun r => r.rs.diag_ignore) <$> rqa_stats sqrt log d rescale rad diag_ignore minl "cross"
        = (fun _ => (0 : Int)) <$> rqa_stats sqrt log d rescale rad diag_ignore minl "cross" := by
  refine ⟨by simp [rqa_stats], ?_⟩
  cases hres : rqa_stats sqrt log d rescale rad diag_ignore minl "cross" with
  | error e => rfl
  | ok r =>
    have h0 := rqa_stats_cross_reports_zero sqrt log d rescale rad diag_ignore minl r hres
    show Except.ok r.rs.diag_ignore = Except.ok 0
    rw [h0]

/-- Claim C9: when every line length is below `minl ≥ 1` (also for the empty
list), `rqa_histlines` does not fail: it returns mean `0`, standard deviation
`0`, count `0` and the table made of the single row `(0, 0)`. -/
theorem histogram_none_qualify (sqrt : K → K) (llengths : PyArray Int) (minl : Int)
    (hvec : llengths.ndim = 1) (hminl : 1 ≤ minl) (hall : ∀ l ∈ llengths.data, l < minl) :
    rqa_histlines sqrt llengths minl
      = .ok (⟨[1, 2], [0, 0]⟩, { mean := 0, std := 0, count := 0 }) := by
  have hv : validLines llengths.data minl = [] := by
    simp only [validLines, List.filter_eq_nil_iff]
    intro l hl
    have := hall l hl
    simp
    omega
  have h2 : ¬ minl ≤ 0 := by omega
  simp [rqa_histlines, hvec, h2, hv]

/-- Witness for C9: the lengths `1, 2, 1` with `minl = 3`. -/
theorem histogram_none_qualify_witness :
    rqa_histlines (K := ℚ) (fun x => x) ⟨[3], [1, 2, 1]⟩ 3
      = .ok (⟨[1, 2], [0, 0]⟩, { mean := 0, std := 0, count := 0 }) :=
  histogram_none_qualify (fun x => x) ⟨[3], [1, 2, 1]⟩ 3 rfl (by decide) (by decide)

/-- Claim C10: when some line length reaches `minl ≥ 1`, `rqa_histlines` returns
the number of lengths `≥ minl` as count, their arithmetic mean as mean, with
`minl ≤ mean ≤ m` for the greatest length `m` of the input, and the square root
of their population variance as standard deviation, which is non-negative. -/
theorem histogram_mean_std (llengths : PyArray Int) (minl : Int)
    (hvec : llengths.ndim = 1) (hminl : 1 ≤ minl) (hex : ∃ l ∈ llengths.data, minl ≤ l) :
    ∃ lh st, rqa_histlines Real.sqrt llengths minl = .ok (lh, st)
      ∧ st.count = llengths.data.countP (fun l => decide (minl ≤ l))
      ∧ 0 < st.count
      ∧ st.mean = ((llengths.data.filter (fun l => decide (minl ≤ l))).map
            (fun (l : Int) => (l : ℝ))).sum / (st.count : ℝ)
      ∧ (minl : ℝ) ≤ st.mean
      ∧ (∃ m ∈ llengths.data, (∀ l ∈ llengths.data, l ≤ m) ∧ st.mean ≤ (m : ℝ))
      ∧ st.std = Real.sqrt (((llengths.data.filter (fun l => decide (minl ≤ l))).map
            (fun (l : Int) => ((l : ℝ) - st.mean) ^ 2)).sum / (st.count : ℝ))
      ∧ 0 ≤ st.std := by
  have hv : validLines llengths.data minl
      = llengths.data.filter (fun l => decide (minl ≤ l)) := rfl
  obtain ⟨l0, hl0, hl0min⟩ := hex
  have hmem : l0 ∈ validLines llengths.data minl := by
    rw [hv, List.mem_filter]
    exact ⟨hl0, by simpa using hl0min⟩
  have hne : validLines llengths.data minl ≠ [] := List.ne_nil_of_mem hmem
  refine ⟨_, _, rqa_histlines_ok Real.sqrt llengths minl hvec hminl hne, ?_, ?_, ?_, ?_, ?_,
    ?_, ?_⟩
  · simp only [hv, List.countP_eq_length_filter]
  · exact List.length_pos.mpr hne
  · simp only [hv]
  · refine mean_lower (K := ℝ) _ minl hne ?_
    intro v hv'
    rw [hv, List.mem_filter] at hv'
    simpa using hv'.2
  · obtain ⟨m, hm, hmax⟩ := exists_list_max llengths.data (List.ne_nil_of_mem hl0)
    refine ⟨m, hm, hmax, mean_upper (K := ℝ) _ m hne ?_⟩
    intro v hv'
    rw [hv, List.mem_filter] at hv'
    exact hmax v hv'.1
  · simp only [hv, sq]
  · exact Real.sqrt_nonneg _

/-- Witness for C10: the lengths `1, 2, 3` with `minl = 2`. -/
theorem histogram_mean_std_witness :
    ∃ lh st, rqa_histlines Real.sqrt ⟨[3], [1, 2, 3]⟩ 2 = .ok (lh, st)
      ∧ st.count = ([1, 2, 3] : List Int).countP (fun l => decide ((2 : Int) ≤ l))
      ∧ 0 < st.count
      ∧ st.mean = ((([1, 2, 3] : List Int).filter (fun l => decide ((2 : Int) ≤ l))).map
            (fun (l : Int) => (l : ℝ))).sum / (st.count : ℝ)
      ∧ ((2 : Int) : ℝ) ≤ st.mean
      ∧ (∃ m ∈ ([1, 2, 3] : List Int), (∀ l ∈ ([1, 2, 3] : List Int), l ≤ m)
          ∧ st.mean ≤ (m : ℝ))
      ∧ st.std = Real.sqrt (((([1, 2, 3] : List Int).filter
            (fun l => decide ((2 : Int) ≤ l))).map
            (fun (l : Int) => ((l : ℝ) - st.mean) ^ 2)).sum / (st.count : ℝ))
      ∧ 0 ≤ st.std :=
  histogram_mean_std ⟨[3], [1, 2, 3]⟩ 2 rfl (by decide) (by decide)

/-- Claim C12 (amended): for non-negative frequencies of positive sum and
`nstates` at least the number of positive frequencies, the entropy returned by
`rqa_entropy` lies between `0` and `log2 nstates`. -/
theorem entropy_bounds (distr : PyArray ℝ) (nstates : Int) (hvec : distr.ndim = 1)
    (hnonneg : ∀ x ∈ distr.data, 0 ≤ x) (hsum : 0 < distr.data.sum)
    (hstates : (distr.data.countP (fun x => decide (0 < x)) : Int) ≤ nstates)
    (hn : 1 ≤ nstates) :
    ∃ H D, rqa_entropy Real.log distr nstates = .ok [H, D]
      ∧ 0 ≤ H ∧ H ≤ Real.logb 2 (nstates : ℝ) ∧ D = Real.logb 2 (nstates : ℝ) - H := by
  have hne : distr.data.sum ≠ 0 := ne_of_gt hsum
  refine ⟨_, _, rqa_entropy_value Real.log distr nstates hvec (by omega) hne, ?_, ?_, rfl⟩
  all_goals
    have hlog2 : 0 < Real.log 2 := Real.log_pos (by norm_num)
    have hterm : (distr.data.map (fun x => if x / distr.data.sum > 0
          then x / distr.data.sum * Real.log (x / distr.data.sum) / Real.log 2 else 0)).sum
        = -((distr.data.map (fun x => x / distr.data.sum)).map
            (fun p => if p > 0 then -(p * Real.log p) else 0)).sum / Real.log 2 := by
      rw [List.map_map]
      apply sum_map_eq_neg_div
      intro x
      simp only [Function.comp]
      split_ifs
      · ring
      · simp
    have hP : ∀ p ∈ distr.data.map (fun x => x / distr.data.sum), 0 ≤ p ∧ p ≤ 1 := by
      intro p hp
      obtain ⟨x, hx, rfl⟩ := List.mem_map.mp hp
      refine ⟨div_nonneg (hnonneg x hx) (le_of_lt hsum), ?_⟩
      rw [div_le_one hsum]
      exact List.single_le_sum hnonneg x hx
    rw [hterm]
  · have := entropy_terms_nonneg _ hP
    have h2 : 0 ≤ ((distr.data.map (fun x => x / distr.data.sum)).map
        (fun p => if p > 0 then -(p * Real.log p) else 0)).sum / Real.log 2 :=
      div_nonneg this (le_of_lt hlog2)
    rw [neg_div]
    linarith
  · have hM : (0 : ℝ) < (nstates : ℝ) := by exact_mod_cast (by omega : (0 : Int) < nstates)
    have hle := entropy_terms_le _ (nstates : ℝ) hM (fun p hp => (hP p hp).1)
    have hsum1 : (distr.data.map (fun x => x / distr.data.sum)).sum = 1 := by
      rw [sum_map_div_const, div_self hne]
    have hcount : ((distr.data.map (fun x => x / distr.data.sum)).countP
        (fun p => decide (0 < p)) : ℝ) ≤ (nstates : ℝ) := by
      rw [List.countP_map]
      have : (distr.data.countP ((fun p => decide (0 < p)) ∘ fun x => x / distr.data.sum))
          = distr.data.countP (fun x => decide (0 < x)) := by
        apply List.countP_congr
        intro x _
        simp only [Function.comp, decide_eq_true_eq]
        exact ⟨fun h => by
          by_contra hx
          have : x / distr.data.sum ≤ 0 :=
            div_nonpos_of_nonpos_of_nonneg (not_lt.mp hx) (le_of_lt hsum)
          linarith, fun h => div_pos h hsum⟩
      rw [this]
      exact_mod_cast hstates
    rw [hsum1] at hle
    have hfrac : 1 / (nstates : ℝ) * ((distr.data.map (fun x => x / distr.data.sum)).countP
        (fun p => decide (0 < p)) : ℝ) ≤ 1 := by
      rw [one_div, inv_mul_le_iff₀ hM]
      linarith
    have hfinal : ((distr.data.map (fun x => x / distr.data.sum)).map
        (fun p => if p > 0 then -(p * Real.log p) else 0)).sum ≤ Real.log (nstates : ℝ) := by
      linarith
    rw [Real.logb, zero_sub, neg_div, neg_neg]
    exact div_le_div_of_nonneg_right hfinal (le_of_lt hlog2)

/-- Witness for C12: the frequencies `1, 0, 3` with `nstates = 2`. -/
theorem entropy_bounds_witness :
    ∃ H D, rqa_entropy Real.log (⟨[3], [1, 0, 3]⟩ : PyArray ℝ) 2 = .ok [H, D]
      ∧ 0 ≤ H ∧ H ≤ Real.logb 2 ((2 : Int) : ℝ) ∧ D = Real.logb 2 ((2 : Int) : ℝ) - H :=
  entropy_bounds ⟨[3], [1, 0, 3]⟩ 2 rfl
    (by
      intro x hx
      simp only [List.mem_cons, List.mem_singleton, List.not_mem_nil, or_false] at hx
      rcases hx with rfl | rfl | rfl <;> norm_num)
    (by norm_num)
    (by
      simp only [List.countP_cons, List.countP_nil]
      norm_num)
    (by decide)

/-- Counterexample to C12 as stated: the frequencies `1, 1` with `nstates = 1`
give the entropy `1`, above `log2 1 = 0` (and the deficit `-1`). -/
theorem entropy_bounds_counterexample :
    rqa_entropy Real.log (⟨[2], [1, 1]⟩ : PyArray ℝ) 1 = .ok [1, -1]
      ∧ Real.logb 2 ((1 : Int) : ℝ) < 1 := by
  have hlog2 : Real.log 2 ≠ 0 := ne_of_gt (Real.log_pos (by norm_num))
  have hsum : (([1, 1] : List ℝ)).sum = 2 := by norm_num
  constructor
  · rw [rqa_entropy_value Real.log ⟨[2], [1, 1]⟩ 1 rfl (by decide)
      (by simp only [hsum]; norm_num)]
    simp only [hsum, List.map_cons, List.map_nil, List.sum_cons, List.sum_nil]
    have h12 : (1 : ℝ) / 2 > 0 := by norm_num
    have hl : Real.log (1 / 2) = -Real.log 2 := by
      rw [one_div, Real.log_inv]
    simp only [h12, if_true, hl, Int.cast_one, Real.log_one, zero_div]
    have hH : (0 : ℝ) - (1 / 2 * -Real.log 2 / Real.log 2
        + (1 / 2 * -Real.log 2 / Real.log 2 + 0)) = 1 := by
      field_simp
      ring
    rw [hH]
    norm_num
  · simp [Real.logb]

/-- Claim C13: for a frequency vector with exactly one positive entry, all
others being `0`, and `nstates ≥ 1`, `rqa_entropy` returns the entropy `0` and
the deficit `log2 nstates`. -/
theorem entropy_one_hot (distr : PyArray ℝ) (nstates : Int) (i : Nat)
    (hvec : distr.ndim = 1) (hn : 1 ≤ nstates) (hpos : 0 < distr.data.getD i 0)
    (hzero : ∀ j, j ≠ i → distr.data.getD j 0 = 0) :
    rqa_entropy Real.log distr nstates = .ok [0, Real.logb 2 (nstates : ℝ)] := by
  have hs : distr.data.sum = distr.data.getD i 0 := sum_eq_getD_of_single _ i hzero
  have hne : distr.data.sum ≠ 0 := by rw [hs]; exact ne_of_gt hpos
  rw [rqa_entropy_value Real.log distr nstates hvec (by omega) hne]
  have hterms : (distr.data.map (fun x => if x / distr.data.sum > 0
      then x / distr.data.sum * Real.log (x / distr.data.sum) / Real.log 2 else 0)).sum = 0 := by
    apply List.sum_eq_zero
    intro t ht
    obtain ⟨y, hy, rfl⟩ := List.mem_map.mp ht
    rcases mem_single_cases _ i hzero y hy with h | h
    · simp [h]
    · rw [h, ← hs, div_self hne]
      simp
  rw [hterms]
  simp [Real.logb]

/-- Witness for C13: the frequencies `0, 3, 0` with `nstates = 4`. -/
theorem entropy_one_hot_witness :
    rqa_entropy Real.log (⟨[3], [0, 3, 0]⟩ : PyArray ℝ) 4 = .ok [0, Real.logb 2 ((4 : Int) : ℝ)] :=
  entropy_one_hot ⟨[3], [0, 3, 0]⟩ 4 1 rfl (by decide) (by simp)
    (by
      intro j hj
      rcases j with _ | _ | _ | j
      · simp
      · exact absurd rfl hj
      · simp
      · simp)

/-- Claim C16, evaluation at the failing input: with `seqA = [1, 2, 3]`,
`seqB = [1]`, `dim = 2`, `lag = 1` the second sequence has no embedded point
(`1 - 1 * (2 - 1) = 0`), yet `rqa_dist` does not fail: it returns a `2 × 2`
matrix. -/
theorem dist_second_sequence_unchecked (sqrt : ℚ → ℚ) :
    ((1 : Int) - 1 * (2 - 1) ≤ 0)
    ∧ ∃ r, rqa_dist sqrt (⟨[3], [1, 2, 3]⟩ : PyArray ℚ) ⟨[1], [1]⟩ 2 1 = .ok r
        ∧ r.d.shape = [2, 2] :=
  ⟨by decide, _, rfl, rfl⟩

/-- Claim C17 (amended): for `1 ≤ n ≤ 32767` and an `n × n` matrix whose number
of maximal diagonal runs of `1` is at most the capacity `n² / 2`, `rqa_line`
returns exactly the lengths of the maximal runs, diagonal by diagonal from
offset `-(n - 1)` to `n - 1` and along each diagonal in increasing row order;
every length is at least `1` and at most the length `n - |offset|` of its
diagonal. -/
theorem line_lengths_are_maximal_runs (thrd : PyArray Int) (n : Nat) (diag_ignore : Int)
    (hshape : thrd.shape = [n, n]) (_hlen : thrd.data.length = n * n) (hn : 1 ≤ n)
    (hshort : n ≤ 32767) (hcap : lineCount thrd.data n ≤ n * n / 2) :
    ∃ r, rqa_line K thrd diag_ignore = .ok r
      ∧ r.ll.data = (allRuns thrd.data n).map (fun (x : Nat) => (x : Int))
      ∧ r.ll.shape = [lineCount thrd.data n]
      ∧ allRuns thrd.data n
          = ((List.range (2 * n - 1)).map
              (fun i => runLengths (diagCells thrd.data n i))).flatten
      ∧ ∀ i, i < 2 * n - 1 → ∀ l ∈ runLengths (diagCells thrd.data n i),
          1 ≤ l ∧ l ≤ n - ((i : Int) - ((n : Int) - 1)).natAbs := by
  obtain ⟨r, hr, hdata, hsh, _, _⟩ := rqa_line_ok (K := K) thrd n diag_ignore hshape hn
  have hspec := scanLines_spec thrd.data n hshort hcap
  have hd : r.ll.data = (allRuns thrd.data n).map (fun (x : Nat) => (x : Int)) := by
    rw [hdata, hspec.2.1]
  refine ⟨r, hr, hd, ?_, rfl, ?_⟩
  · rw [hsh, hd, List.length_map, lineCount]
  · intro i _ l hl
    have := runLengthsAux_bounds 0 (diagCells thrd.data n i) l hl
    rw [diagCells_length] at this
    have e : (i : Int) - ((n : Int) - 1) = (i : Int) - (n : Int) + 1 := by ring
    rw [e]
    omega

/-- Witness for C17: a `3 × 3` matrix with isolated points and a run of two. -/
theorem line_lengths_are_maximal_runs_witness :
    ∃ r, rqa_line ℚ ⟨[3, 3], [1, 0, 1, 0, 1, 0, 0, 0, 0]⟩ 0 = .ok r
      ∧ r.ll.data = (allRuns [1, 0, 1, 0, 1, 0, 0, 0, 0] 3).map (fun (x : Nat) => (x : Int))
      ∧ r.ll.shape = [lineCount [1, 0, 1, 0, 1, 0, 0, 0, 0] 3]
      ∧ allRuns [1, 0, 1, 0, 1, 0, 0, 0, 0] 3
          = ((List.range (2 * 3 - 1)).map
              (fun i => runLengths (diagCells [1, 0, 1, 0, 1, 0, 0, 0, 0] 3 i))).flatten
      ∧ ∀ i, i < 2 * 3 - 1 → ∀ l ∈ runLengths (diagCells [1, 0, 1, 0, 1, 0, 0, 0, 0] 3 i),
          1 ≤ l ∧ l ≤ 3 - ((i : Int) - (((3 : Nat) : Int) - 1)).natAbs :=
  line_lengths_are_maximal_runs ⟨[3, 3], [1, 0, 1, 0, 1, 0, 0, 0, 0]⟩ 3 0 rfl rfl (by decide)
    (by decide) (by decide)

/-- Counterexample to C17 as stated: on the `32768 × 32768` matrix with ones on
the main diagonal only there is one run, within the capacity, of length `32768`;
the returned list is `[-32768]`, which is not the list of run lengths and holds
a length below `1`. -/
theorem line_lengths_counterexample :
    ∃ r, rqa_line ℚ ⟨[32768, 32768], identityMatrix 32768⟩ 0 = .ok r
      ∧ r.ll.data = [-32768]
      ∧ lineCount (identityMatrix 32768) 32768 ≤ 32768 * 32768 / 2
      ∧ r.ll.data ≠ (allRuns (identityMatrix 32768) 32768).map (fun (x : Nat) => (x : Int))
      ∧ ¬ (∀ l ∈ r.ll.data, 1 ≤ l) := by
  obtain ⟨r, hr, hdata, _, _, _⟩ :=
    rqa_line_ok (K := ℚ) ⟨[32768, 32768], identityMatrix 32768⟩ 32768 0 rfl (by norm_num)
  obtain ⟨h1, h2⟩ := scanLines_identity 32768 (by norm_num)
  have hd : r.ll.data = [-32768] := by
    rw [hdata]
    simp only at h1 h2 ⊢
    rw [h1, h2]
    decide
  refine ⟨r, hr, hd, le_trans (lineCount_identity 32768 (by norm_num)) (by norm_num), ?_, ?_⟩
  · rw [hd]
    intro heq
    have hmem : (-32768 : Int) ∈ (allRuns (identityMatrix 32768) 32768).map
        (fun (x : Nat) => (x : Int)) := by
      rw [← heq]; exact List.mem_singleton_self _
    obtain ⟨x, _, hx⟩ := List.mem_map.mp hmem
    omega
  · rw [hd]
    intro h
    have := h (-32768) (List.mem_singleton_self _)
    omega

/-- Claim C19 (amended with `n ≤ 32767`): on a square `n × n` distance matrix
with `2 ≤ n ≤ 32767`, `rad > 0`, `diag_ignore ≥ 0`, `minl ≥ 1`, no rescaling,
and at least one cell with `|i - j| ≥ diag_ignore` whose distance is `≤ rad`,
`rqa_stats` returns a result with error code `0`; the two divisors are
positive (`npts > 0`, sum of the line lengths `> 0`), and when the entropy routine
is invoked (the table `lh` has more than two entries, that is more than one
row) its argument `maxl_poss - minl + 1` is `≥ 2` and the frequencies handed to
it have a positive sum. -/
theorem analyze_succeeds_with_recurrence (sqrt log : K → K) (n : Nat) (d : PyArray K)
    (rescale : Int) (rad : K) (diag_ignore minl : Int) (rqa_mode : String)
    (hshape : d.shape = [n, n]) (_hlen : d.data.length = n * n)
    (hn : 2 ≤ n) (hshort : n ≤ 32767) (hrad : 0 < rad) (hdi : 0 ≤ diag_ignore)
    (hminl : 1 ≤ minl) (h1 : rescale ≠ 1) (h2 : rescale ≠ 2)
    (hcell : ∃ i j, i < n ∧ j < n ∧ diag_ignore ≤ |(i : Int) - (j : Int)|
      ∧ d.data.getD (i * n + j) 0 ≤ rad) :
    ∃ r, rqa_stats sqrt log d rescale rad diag_ignore minl rqa_mode = .ok r
      ∧ r.err_code = 0
      ∧ 0 < r.rs.npts
      ∧ 0 < r.mats.ll.data.sum
      ∧ (r.mats.lh.size > 2 →
          2 ≤ r.rs.maxl_poss - r.rs.minl + 1 ∧ 0 < (freqColumn r.mats.lh).sum) := by
  obtain ⟨eff, heffdef⟩ : ∃ eff, eff = (if rqa_mode = "cross" then 0 else diag_ignore) :=
    ⟨_, rfl⟩
  have heff0 : 0 ≤ eff := by rw [heffdef]; split_ifs <;> omega
  have heffle : eff ≤ diag_ignore := by rw [heffdef]; split_ifs <;> omega
  obtain ⟨td, hradius, hsh, _, hentries⟩ :=
    rqa_radius_entries n d rescale rad eff hshape hn hrad heff0
  have hband : ∀ i j, i < n → j < n → |(i : Int) - (j : Int)| < eff →
      td.data.getD (i * n + j) 0 = 0 := by
    intro i j hi hj hlt
    rw [hentries i j hi hj, if_pos hlt]
  obtain ⟨lr, hline, hlsh, hnpts, hmax, hb, hsum, hne⟩ :=
    rqa_line_bounds (K := K) td n eff hsh hn hshort hband
  have hones : 1 ≤ onesOutsideBand td.data n eff := by
    obtain ⟨i, j, hi, hj, hij, hdist⟩ := hcell
    unfold onesOutsideBand
    apply Finset.card_pos.mpr
    refine ⟨(i, j), ?_⟩
    simp only [Finset.mem_filter, Finset.mem_product, Finset.mem_range]
    refine ⟨⟨hi, hj⟩, by omega, ?_⟩
    have hnot : ¬ (|(i : Int) - (j : Int)| < eff) := by omega
    have hr : rescaleDist rescale d.data = d.data := by simp [rescaleDist, h1, h2]
    rw [hentries i j hi hj, if_neg hnot, hr, if_pos hdist]
  have hdne : lr.ll.data ≠ [] := hne hones
  have hlenpos : 0 < lr.ll.data.length := List.length_pos.mpr hdne
  have hsz : lr.ll.size ≠ 0 := by
    simp only [PyArray.size, hlsh, List.prod_cons, List.prod_nil, mul_one]
    omega
  have hsumpos : 0 < lr.ll.data.sum := by
    have := sum_ge_length lr.ll.data (fun x hx => (hb x hx).1)
    omega
  have hnptspos : 0 < lr.npts := by
    have hle := onesOutsideBand_pos td.data n eff hones
    rw [hnpts, nptsOf_eq_consideredCells n eff heff0 (by omega)]
    have := onesOutsideBand_le td.data n eff
    exact_mod_cast (by omega : 0 < consideredCells n eff)
  obtain ⟨lh, st, hhist, hentr, _, _⟩ := histogram_facts sqrt lr.ll minl ((n : Int) - eff)
    (by simp [PyArray.ndim, hlsh]) hminl hb
  have hentok : ∃ ent, (if lh.size > 2 then
        rqa_entropy log ⟨[lh.shape.getD 0 0], freqColumn lh⟩ (lr.maxl_poss - minl + 1)
      else .ok [0, 0]) = .ok ent := by
    by_cases hsz2 : lh.size > 2
    · obtain ⟨e1, e2, e3⟩ := hentr hsz2
      rw [if_pos hsz2]
      exact rqa_entropy_ok log _ _ e3 (by rw [hmax]; omega) (ne_of_gt e2)
    · rw [if_neg hsz2]
      exact ⟨_, rfl⟩
  obtain ⟨ent, hent⟩ := hentok
  rw [heffdef] at hradius hline
  obtain ⟨r, hr, herr, _, _, rnpts, rmax, rminl, rll, rlh⟩ := rqa_stats_value sqrt log d rescale
    rad diag_ignore minl rqa_mode td lr lh st ent hradius hline hsz hhist hent
  refine ⟨r, hr, herr, by rw [rnpts]; exact hnptspos, by rw [rll]; exact hsumpos, ?_⟩
  rw [rlh, rmax, rminl, hmax]
  intro hsz2
  exact ⟨(hentr hsz2).1, (hentr hsz2).2.1⟩

/-- Witness for C19: a `2 × 2` distance matrix, radius `1`. -/
theorem analyze_succeeds_with_recurrence_witness :
    ∃ r, rqa_stats (fun x : ℚ => x) (fun x : ℚ => x) ⟨[2, 2], [0, 3, 1, 0]⟩ 0 1 0 1 "auto"
        = .ok r
      ∧ r.err_code = 0
      ∧ 0 < r.rs.npts
      ∧ 0 < r.mats.ll.data.sum
      ∧ (r.mats.lh.size > 2 →
          2 ≤ r.rs.maxl_poss - r.rs.minl + 1 ∧ 0 < (freqColumn r.mats.lh).sum) :=
  analyze_succeeds_with_recurrence (fun x : ℚ => x) (fun x : ℚ => x) 2 ⟨[2, 2], [0, 3, 1, 0]⟩
    0 1 0 1 "auto" rfl rfl (by decide) (by decide) (by norm_num) (by decide) (by decide)
    (by decide) (by decide) ⟨0, 0, by decide, by decide, by decide, by norm_num⟩

/-- Counterexample to C19 as stated: on the `32768 × 32768` distance matrix with
`0` on the main diagonal and `2` elsewhere, radius `1`, `diag_ignore = 0`,
`minl = 1`, no rescaling, the cell `(0, 0)` has distance `≤ 1`, and `rqa_stats`
returns a result whose line lengths sum to `-32768`: the divisor of the
determinism percentage is not positive. -/
theorem analyze_line_sum_counterexample :
    (diagonalDistances ℚ 32768).shape = [32768, 32768]
    ∧ (diagonalDistances ℚ 32768).data.getD (0 * 32768 + 0) 0 ≤ 1
    ∧ ∃ r, rqa_stats (fun x : ℚ => x) (fun x : ℚ => x) (diagonalDistances ℚ 32768) 0 1 0 1
          "auto" = .ok r
      ∧ r.err_code = 0
      ∧ r.mats.ll.data.sum = -32768
      ∧ ¬ (0 < r.mats.ll.data.sum) := by
  refine ⟨rfl, ?_, ?_⟩
  · rw [diagonalDistances, getD_map_range _ _ _ _ (by norm_num)]
    norm_num
  · obtain ⟨r, hr, herr, hll, _⟩ :=
      rqa_stats_overflow (K := ℚ) (fun x : ℚ => x) (fun x : ℚ => x) "auto"
    refine ⟨r, hr, herr, ?_, ?_⟩ <;> rw [hll] <;> decide

/-- Claim C20 (amended with `n ≤ 32767`): when `rqa_stats` returns a result on a
square `n × n` matrix with `2 ≤ n ≤ 32767`, `rad > 0`, `diag_ignore ≥ 0` and
`minl ≥ 1`, then `0 < perc_recur ≤ 100` and `0 ≤ perc_determ ≤ 100`; the line
lengths sum to at most `npts`, which is the number of cells outside the
excluded band. -/
theorem percentages_bounded (sqrt log : K → K) (n : Nat) (d : PyArray K)
    (rescale : Int) (rad : K) (diag_ignore minl : Int) (rqa_mode : String) (r : RqaResult K)
    (hshape : d.shape = [n, n]) (_hlen : d.data.length = n * n)
    (hn : 2 ≤ n) (hshort : n ≤ 32767) (hrad : 0 < rad) (hdi : 0 ≤ diag_ignore)
    (hminl : 1 ≤ minl)
    (hres : rqa_stats sqrt log d rescale rad diag_ignore minl rqa_mode = .ok r) :
    0 < r.rs.perc_recur ∧ r.rs.perc_recur ≤ 100
    ∧ 0 ≤ r.rs.perc_determ ∧ r.rs.perc_determ ≤ 100
    ∧ r.mats.ll.data.sum ≤ r.rs.npts
    ∧ r.rs.npts = (consideredCells n (if rqa_mode = "cross" then 0 else diag_ignore) : Int) := by
  obtain ⟨eff, heffdef⟩ : ∃ eff, eff = (if rqa_mode = "cross" then 0 else diag_ignore) :=
    ⟨_, rfl⟩
  have heff0 : 0 ≤ eff := by rw [heffdef]; split_ifs <;> omega
  obtain ⟨td, hradius, hsh, _, hentries⟩ :=
    rqa_radius_entries n d rescale rad eff hshape hn hrad heff0
  have hband : ∀ i j, i < n → j < n → |(i : Int) - (j : Int)| < eff →
      td.data.getD (i * n + j) 0 = 0 := by
    intro i j hi hj hlt
    rw [hentries i j hi hj, if_pos hlt]
  obtain ⟨lr, hline, hlsh, hnpts, hmax, hb, hsum, _⟩ :=
    rqa_line_bounds (K := K) td n eff hsh hn hshort hband
  obtain ⟨lh, st, hhist, _, hdet0, hdet1⟩ := histogram_facts sqrt lr.ll minl ((n : Int) - eff)
    (by simp [PyArray.ndim, hlsh]) hminl hb
  rw [heffdef] at hradius hline
  have hsz : lr.ll.size ≠ 0 := by
    intro h0
    simp [rqa_stats, hradius, hline, h0] at hres
  obtain ⟨ent, hent⟩ : ∃ ent, (if lh.size > 2 then
        rqa_entropy log ⟨[lh.shape.getD 0 0], freqColumn lh⟩ (lr.maxl_poss - minl + 1)
      else .ok [0, 0]) = .ok ent := by
    cases hc : (if lh.size > 2 then
        rqa_entropy log ⟨[lh.shape.getD 0 0], freqColumn lh⟩ (lr.maxl_poss - minl + 1)
      else .ok [0, 0]) with
    | error e =>
      simp only [rqa_stats, hradius, hline, hsz, if_false, hhist, hc] at hres
      cases hres
    | ok ent => exact ⟨ent, rfl⟩
  obtain ⟨r', hr', _, hperc, hdeterm, rnpts, _, _, rll, _⟩ := rqa_stats_value sqrt log d
    rescale rad diag_ignore minl rqa_mode td lr lh st ent hradius hline hsz hhist hent
  have hrr : r' = r := by
    rw [hres] at hr'
    exact (Except.ok.inj hr').symm
  subst hrr
  have hlenpos : 0 < lr.ll.data.length := by
    simp only [PyArray.size, hlsh, List.prod_cons, List.prod_nil, mul_one] at hsz
    omega
  have hsumpos : 0 < lr.ll.data.sum := by
    have := sum_ge_length lr.ll.data (fun x hx => (hb x hx).1)
    omega
  have hones : 1 ≤ onesOutsideBand td.data n eff := by omega
  have hle := onesOutsideBand_pos td.data n eff hones
  have hnptsc : lr.npts = (consideredCells n eff : Int) := by
    rw [hnpts, nptsOf_eq_consideredCells n eff heff0 (by omega)]
  have hsumle : lr.ll.data.sum ≤ lr.npts := by
    rw [hnptsc]
    have := onesOutsideBand_le td.data n eff
    omega
  have hsK : (0 : K) < ((lr.ll.data.sum : Int) : K) := by exact_mod_cast hsumpos
  have hnK : (0 : K) < ((lr.npts : Int) : K) := by
    have : 0 < lr.npts := by omega
    exact_mod_cast this
  have hleK : ((lr.ll.data.sum : Int) : K) ≤ ((lr.npts : Int) : K) := by exact_mod_cast hsumle
  refine ⟨?_, ?_, ?_, ?_, ?_, ?_⟩
  · rw [hperc]
    exact div_pos (mul_pos (by norm_num) hsK) hnK
  · rw [hperc, div_le_iff₀ hnK]
    exact mul_le_mul_of_nonneg_left hleK (by norm_num)
  · rw [hdeterm]
    split_ifs
    · exact div_nonneg (mul_nonneg (by norm_num) hdet0) (le_of_lt hsK)
    · exact le_refl _
  · rw [hdeterm]
    split_ifs
    · rw [div_le_iff₀ hsK]
      exact mul_le_mul_of_nonneg_left hdet1 (by norm_num)
    · norm_num
  · rw [rll, rnpts]
    exact hsumle
  · rw [rnpts, hnptsc, heffdef]

/-- Witness for C20: a `3 × 3` distance matrix, radius `1`, `diag_ignore = 1`. -/
theorem percentages_bounded_witness :
    ∃ r, rqa_stats (fun x : ℚ => x) (fun x : ℚ => x)
          ⟨[3, 3], [0, 3, 3, 3, 0, 0, 3, 0, 0]⟩ 0 1 1 1 "auto" = .ok r
      ∧ 0 < r.rs.perc_recur ∧ r.rs.perc_recur ≤ 100
      ∧ 0 ≤ r.rs.perc_determ ∧ r.rs.perc_determ ≤ 100
      ∧ r.mats.ll.data.sum ≤ r.rs.npts
      ∧ r.rs.npts = (consideredCells 3 (if "auto" = "cross" then 0 else 1) : Int) :=
  ⟨_, rfl, percentages_bounded (fun x : ℚ => x) (fun x : ℚ => x) 3
    ⟨[3, 3], [0, 3, 3, 3, 0, 0, 3, 0, 0]⟩ 0 1 1 1 "auto" _ rfl rfl (by decide) (by decide)
    (by norm_num) (by decide) (by decide) rfl⟩

/-- Counterexample to C20 as stated: on the `32768 × 32768` distance matrix with
`0` on the main diagonal and `2` elsewhere, radius `1`, `diag_ignore = 0`,
`minl = 1`, `rqa_stats` returns a result whose recurrence percentage is
negative. -/
theorem percentages_counterexample :
    ∃ r, rqa_stats (fun x : ℚ => x) (fun x : ℚ => x) (diagonalDistances ℚ 32768) 0 1 0 1
          "auto" = .ok r
      ∧ r.rs.perc_recur = -100 / 32768
      ∧ r.rs.perc_recur < 0 := by
  obtain ⟨r, hr, _, _, hperc⟩ :=
    rqa_stats_overflow (K := ℚ) (fun x : ℚ => x) (fun x : ℚ => x) "auto"
  have e : r.rs.perc_recur = -100 / 32768 := by
    rw [hperc]; norm_num
  exact ⟨r, hr, e, by rw [e]; norm_num⟩

end Claims

end RQA
